import Mathlib

/-!
Verification of the geometric core of the digital-twin-house repository.

The development shallowly embeds three source modules:
  * the furniture collision engine (`getFootprint`, `sat2D`, `checkCollision`,
    `getCollidingIds`) from `src/store/useHouseStore.ts`;
  * the wall-snap geometry (`findNearestWall`, `columnEdgeCenter`) from the
    same file;
  * the raster floor-plan analyzer (`analyzeFloorPlan`, `dilateWalls`) from
    `src/utils/floorPlanAnalyzer.ts`.

JavaScript numbers are modelled as real numbers (`ℝ`) in the geometry
modules; the analyzer's pixel pipeline is integer-valued and is modelled
computably over `Nat` and `ℚ` (the luma/threshold arithmetic is exact
rational arithmetic in the source's constants).
-/

namespace House

/-! ## Data model (from src/types/index.ts) -/

/-- Furniture box, from `src/types/index.ts` (the optional `meta` field is
presentation data and is omitted).  `position`/`size` are the `[x, y, z]`
triples of the source, `rotation` the yaw in radians, `elevation` the bottom
height. -/
structure Furniture where
  id : String
  name : String
  position : ℝ × ℝ × ℝ
  size : ℝ × ℝ × ℝ
  color : String
  rotation : ℝ
  elevation : ℝ

/-- Room rectangle, from `src/types/index.ts` (presentation-only `meta`
omitted).  Coordinates are canvas pixels. -/
structure Room where
  id : String
  name : String
  x : ℝ
  y : ℝ
  width : ℝ
  height : ℝ
  color : String

/-- Wall axis tag: `'h'` (horizontal wall) or `'v'` (vertical wall). -/
inductive Axis where
  | h : Axis
  | v : Axis
deriving DecidableEq

/-- Result of `findNearestWall`, from `src/store/useHouseStore.ts`. -/
structure WallHit where
  canvasX : ℝ
  canvasY : ℝ
  wallAxis : Axis

/-! ## Collision engine (from src/store/useHouseStore.ts, collision part)

`Math.cos` / `Math.sin` are modelled by `Real.cos` / `Real.sin`. -/

/-- Footprint: the four world-space XZ corners of a furniture box
(`getFootprint` in the source).  The local corner list and the rotation
formula follow the source exactly. -/
noncomputable def getFootprint (f : Furniture) : List (ℝ × ℝ) :=
  let w := f.size.1
  let d := f.size.2.2
  let px := f.position.1
  let pz := f.position.2.2
  let c := Real.cos f.rotation
  let s := Real.sin f.rotation
  let hw := w / 2
  let hd := d / 2
  [(-hw, -hd), (hw, -hd), (hw, hd), (-hw, hd)].map
    (fun lp => (px + lp.1 * c - lp.2 * s, pz + lp.1 * s + lp.2 * c))

/-- Projection of a point list onto the axis `(nx, ny)` returning
`[min, max]` (`project` in the source; `Math.min/Math.max` over the dot
products).  The source never calls this on an empty list; the empty case is
given the junk value `(0, 0)`. -/
noncomputable def project (pts : List (ℝ × ℝ)) (nx ny : ℝ) : ℝ × ℝ :=
  match pts.map (fun p => p.1 * nx + p.2 * ny) with
  | [] => (0, 0)
  | d :: ds => (ds.foldl min d, ds.foldl max d)

/-- Edge list of a polygon: consecutive vertex pairs with wrap-around,
i.e. the pairs `(poly[i], poly[(i+1) % poly.length])` iterated by the
source's index loop. -/
def edgePairs {α : Type} (poly : List α) : List (α × α) :=
  poly.zip (poly.rotate 1)

/-- Separation test of one polygon's edge normals (the body of the source's
outer `for (const poly of [a, b])` loop in `sat2D`): `true` iff no edge
normal of `poly` separates `a` from `b`.  The normal of an edge `(p, q)` is
`(-(qy - py), qx - px)` as in the source. -/
noncomputable def satAxes (poly a b : List (ℝ × ℝ)) : Bool :=
  (edgePairs poly).all fun pq =>
    let nx := -(pq.2.2 - pq.1.2)
    let ny := pq.2.1 - pq.1.1
    let ra := project a nx ny
    let rb := project b nx ny
    if ra.2 ≤ rb.1 ∨ rb.2 ≤ ra.1 then false else true

/-- 2D separating-axis test (`sat2D` in the source): the polygons intersect
iff no edge normal of either polygon yields disjoint projections; touching
(`max == min`) counts as separated. -/
noncomputable def sat2D (a b : List (ℝ × ℝ)) : Bool :=
  [a, b].all fun poly => satAxes poly a b

/-- 3D collision test (`checkCollision` in the source): vertical range
`[elevation, elevation + size.y)` overlap (strict), then XZ SAT. -/
noncomputable def checkCollision (a b : Furniture) : Bool :=
  let aBot := a.elevation
  let aTop := aBot + a.size.2.1
  let bBot := b.elevation
  let bTop := bBot + b.size.2.1
  if aBot ≥ bTop ∨ bBot ≥ aTop then false
  else sat2D (getFootprint a) (getFootprint b)

/-- Ordered pairs `(l[i], l[j])` with `i < j`, in the iteration order of the
source's double loop in `getCollidingIds`. -/
def allPairs {α : Type} : List α → List (α × α)
  | [] => []
  | x :: xs => (xs.map fun y => (x, y)) ++ allPairs xs

/-- Set of ids of furniture involved in at least one pairwise collision
(`getCollidingIds` in the source; the JS `Set<string>` is modelled as a
`Finset String`). -/
noncomputable def getCollidingIds (furniture : List Furniture) : Finset String :=
  (allPairs furniture).foldl
    (fun ids ab =>
      if checkCollision ab.1 ab.2 then insert ab.1.id (insert ab.2.id ids) else ids)
    ∅

/-! ## Wall snapping (from src/store/useHouseStore.ts, walls part) -/

/-- Wall segment of a room boundary, tagged with its axis. -/
structure Seg where
  x1 : ℝ
  y1 : ℝ
  x2 : ℝ
  y2 : ℝ
  axis : Axis

/-- The four boundary segments of a room, in the order built by
`findNearestWall` in the source. -/
def segsOf (room : Room) : List Seg :=
  [ ⟨room.x, room.y, room.x + room.width, room.y, Axis.h⟩,
    ⟨room.x, room.y + room.height, room.x + room.width, room.y + room.height, Axis.h⟩,
    ⟨room.x, room.y, room.x, room.y + room.height, Axis.v⟩,
    ⟨room.x + room.width, room.y, room.x + room.width, room.y + room.height, Axis.v⟩ ]

/-- One iteration of the segment loop of `findNearestWall`: state is the
current `(best, bestDist)` pair.  `Math.hypot` is `Real.sqrt` of the sum of
squares; the projection parameter is clamped to `[0.05, 0.95]` as in the
source. -/
noncomputable def scanSeg (cx cy : ℝ) (st : Option WallHit × ℝ) (seg : Seg) :
    Option WallHit × ℝ :=
  let dx := seg.x2 - seg.x1
  let dy := seg.y2 - seg.y1
  let lenSq := dx * dx + dy * dy
  if lenSq = 0 then st
  else
    let t := max 0.05 (min 0.95 (((cx - seg.x1) * dx + (cy - seg.y1) * dy) / lenSq))
    let px := seg.x1 + t * dx
    let py := seg.y1 + t * dy
    let d := Real.sqrt ((cx - px) * (cx - px) + (cy - py) * (cy - py))
    if d < st.2 then (some ⟨px, py, seg.axis⟩, d) else st

/-- Nearest wall-snap point within `snapDist` (`findNearestWall` in the
source, default `snapDist = 14`): folds `scanSeg` over all rooms' segments
starting from `(null, snapDist)` and returns the best hit. -/
noncomputable def findNearestWall (rooms : List Room) (cx cy : ℝ)
    (snapDist : ℝ := 14) : Option WallHit :=
  ((rooms.flatMap segsOf).foldl (scanSeg cx cy) (none, snapDist)).1

/-- Column center placement against a wall face (`columnEdgeCenter` in the
source): offset by `depthPx / 2` perpendicular to the wall, towards the
cursor's side. -/
noncomputable def columnEdgeCenter (cursor : ℝ × ℝ) (wall : WallHit)
    (depthPx : ℝ) : ℝ × ℝ :=
  let dh := depthPx / 2
  match wall.wallAxis with
  | Axis.h =>
      let offsetY := if cursor.2 ≥ wall.canvasY then dh else -dh
      (wall.canvasX, wall.canvasY + offsetY)
  | Axis.v =>
      let offsetX := if cursor.1 ≥ wall.canvasX then dh else -dh
      (wall.canvasX + offsetX, wall.canvasY)

/-! ## Raster floor-plan analyzer (from src/utils/floorPlanAnalyzer.ts)

The analyzer operates on the pixel buffer read back by `getImageData` after
the Step-0 downscale.  For images within `MAX_SIZE = 400` px the downscale
is the identity (`scale = min(400/srcW, 400/srcH, 1) = 1`); resampling of
larger images is performed by the browser canvas outside this core, so the
embedding takes the decoded buffer itself as input. -/

/-- Pixel state: bright / candidate room interior. -/
def OPEN : Nat := 1

/-- Pixel state: wall. -/
def WALL : Nat := 0

/-- Pixel state: outside the building. -/
def EXTERIOR : Nat := 2

/-- Decoded pixel buffer: `pixel x y` is the `(r, g, b)` triple at column
`x`, row `y`. -/
structure Image where
  width : Nat
  height : Nat
  pixel : Nat → Nat → Nat × Nat × Nat

/-- Luma of a pixel, `0.299 r + 0.587 g + 0.114 b`; the weights sum to 1
exactly, and the arithmetic on 8-bit channels is exact. -/
def luma (p : Nat × Nat × Nat) : ℚ :=
  0.299 * p.1 + 0.587 * p.2.1 + 0.114 * p.2.2

/-- Step 1: grayscale and binarize against `WALL_THRESHOLD = 200`
(luma `≥ 200` is `OPEN`, else `WALL`); the grid is the source's row-major
flat array, index `i = y * w + x`. -/
def binarize (img : Image) : List Nat :=
  (List.range (img.width * img.height)).map fun i =>
    if 200 ≤ luma (img.pixel (i % img.width) (i / img.width)) then OPEN else WALL

/-- Sum of the binary grid (the source's `binary.reduce((s, v) => s + v, 0)`);
with entries in `{OPEN = 1, WALL = 0}` this is the open-pixel count. -/
def openCount (g : List Nat) : Nat := g.foldl (· + ·) 0

/-- Polarity inversion of the binary grid. -/
def flipGrid (g : List Nat) : List Nat :=
  g.map fun v => if v = OPEN then WALL else OPEN

/-- Steps 1–2 combined: binarization plus polarity auto-detection — if fewer
than 30% of the pixels are open, invert the whole grid. -/
def binaryOf (img : Image) : List Nat :=
  let b := binarize img
  if (openCount b : ℚ) < (img.width * img.height : ℚ) * 0.3 then flipGrid b else b

/-- Morphological wall dilation (`dilateWalls` in the source): every `WALL`
pixel of `src` writes `WALL` over the clipped square of radius `radius`
around it in the copy `dst`.  `y - radius` on `Nat` is the source's
`Math.max(0, y - radius)`; the scan is row-major like the source's nested
loops. -/
def dilateWalls (src : List Nat) (w h radius : Nat) : List Nat :=
  (List.range (h * w)).foldl
    (fun dst i =>
      let y := i / w
      let x := i % w
      if src.getD (y * w + x) 0 = WALL then
        (List.range' (y - radius) (min (h - 1) (y + radius) + 1 - (y - radius))).foldl
          (fun d ny =>
            (List.range' (x - radius) (min (w - 1) (x + radius) + 1 - (x - radius))).foldl
              (fun d2 nx => d2.set (ny * w + nx) WALL) d)
          dst
      else dst)
    src

/-- Border seeding step (`enqueueEdge` in the source): if the cell at
`(x, y)` is `OPEN`, relabel it `EXTERIOR` and enqueue its index. -/
def enqueueEdge (w : Nat) (st : List Nat × List Nat) (x y : Nat) :
    List Nat × List Nat :=
  let idx := y * w + x
  if st.1.getD idx 0 = OPEN then (st.1.set idx EXTERIOR, st.2 ++ [idx]) else st

/-- The whole border-seeding phase of Step 3, in source order: top and
bottom rows first, then the left/right columns for `y` from `1` to `h-2`. -/
def seedBorder (g : List Nat) (w h : Nat) : List Nat × List Nat :=
  let st1 := (List.range w).foldl
    (fun st x => enqueueEdge w (enqueueEdge w st x 0) x (h - 1)) (g, [])
  (List.range' 1 (h - 1 - 1)).foldl
    (fun st y => enqueueEdge w (enqueueEdge w st 0 y) (w - 1) y) st1

/-- The 4-connectivity offsets of the source's BFS loops. -/
def nbrOffsets : List (Int × Int) := [(-1, 0), (1, 0), (0, -1), (0, 1)]

/-- The body of the BFS neighbour loop: try to relabel one in-bounds
`OPEN` 4-neighbour of `curr` as `EXTERIOR` and enqueue it. -/
def tryMark (w h curr : Nat) (st : List Nat × List Nat) (dxy : Int × Int) :
    List Nat × List Nat :=
  let nx := ((curr % w : Nat) : Int) + dxy.1
  let ny := ((curr / w : Nat) : Int) + dxy.2
  if nx < 0 ∨ (w : Int) ≤ nx ∨ ny < 0 ∨ (h : Int) ≤ ny then st
  else
    let nidx := (ny * w + nx).toNat
    if st.1.getD nidx 0 = OPEN then (st.1.set nidx EXTERIOR, st.2 ++ [nidx])
    else st

/-- One dequeue step of the exterior flood fill: relabel the current cell's
in-bounds `OPEN` 4-neighbours `EXTERIOR` and enqueue them. -/
def extStep (w h : Nat) (lab : List Nat) (q : List Nat) (curr : Nat) :
    List Nat × List Nat :=
  nbrOffsets.foldl (tryMark w h curr) (lab, q)

/-- The in-bounds flat index of the 4-neighbour of cell `curr` in direction
`dxy`, or `none` when the neighbour falls outside the grid — the index
arithmetic of `tryMark`. -/
def nbrIdx (w h curr : Nat) (dxy : Int × Int) : Option Nat :=
  let nx := ((curr % w : Nat) : Int) + dxy.1
  let ny := ((curr / w : Nat) : Int) + dxy.2
  if nx < 0 ∨ (w : Int) ≤ nx ∨ ny < 0 ∨ (h : Int) ≤ ny then none
  else some (ny * w + nx).toNat

/-- Number of `OPEN` cells of a grid, the BFS termination measure. -/
def countOpen (l : List Nat) : Nat := l.countP fun v => decide (v = OPEN)

/-- Queue-driven BFS of the exterior flood fill (the source's
`while (head < queue.length)` loop).  The loop performs one iteration per
enqueued index, and at most `w*h` cells are ever enqueued beyond the seeds,
so the fuel `w*h + initial queue length` used below never runs out. -/
def extBFS (w h : Nat) : Nat → List Nat → List Nat → List Nat
  | 0, lab, _ => lab
  | _ + 1, lab, [] => lab
  | fuel + 1, lab, curr :: rest =>
      let st := extStep w h lab rest curr
      extBFS w h fuel st.1 st.2

/-- Accumulator of the component BFS of Step 4: the shared `visited` array
plus the bounding box and pixel area of the current component. -/
structure RegionAcc where
  visited : List Nat
  minX : Nat
  maxX : Nat
  minY : Nat
  maxY : Nat
  area : Nat

/-- Component BFS of Step 4 (the inner `while (qHead < regionQueue.length)`
loop): dequeue a cell, count it and extend the bounding box, then enqueue
its in-bounds, `OPEN`, unvisited 4-neighbours, marking them visited.  Fuel
as in `extBFS`. -/
def regionBFS (labeled : List Nat) (w h : Nat) :
    Nat → List Nat → RegionAcc → RegionAcc
  | 0, _, acc => acc
  | _ + 1, [], acc => acc
  | fuel + 1, curr :: rest, acc =>
      let cx := curr % w
      let cy := curr / w
      let st := nbrOffsets.foldl
        (fun (st : List Nat × List Nat) dxy =>
          let nx := (cx : Int) + dxy.1
          let ny := (cy : Int) + dxy.2
          if nx < 0 ∨ (w : Int) ≤ nx ∨ ny < 0 ∨ (h : Int) ≤ ny then st
          else
            let nidx := (ny * w + nx).toNat
            if labeled.getD nidx 0 = OPEN ∧ st.1.getD nidx 0 = 0 then
              (st.1.set nidx 1, st.2 ++ [nidx])
            else st)
        (acc.visited, rest)
      regionBFS labeled w h fuel st.2
        ⟨st.1, min acc.minX cx, max acc.maxX cx, min acc.minY cy, max acc.maxY cy,
          acc.area + 1⟩

/-- Step 4: scan interior start cells in row-major order; BFS each
unvisited `OPEN` component; keep the bounding boxes `(minX, minY, maxX, maxY)`
of the components whose pixel area is at least `w*h*0.008`
(the minimum-area fraction).  The `visited` array is shared across the whole
scan as in the source. -/
def scanRooms (labeled : List Nat) (w h : Nat) : List (Nat × Nat × Nat × Nat) :=
  ((List.range' 1 (h - 1 - 1)).foldl
    (fun st startY =>
      (List.range' 1 (w - 1 - 1)).foldl
        (fun st2 startX =>
          let startIdx := startY * w + startX
          if labeled.getD startIdx 0 = OPEN ∧ st2.1.getD startIdx 0 = 0 then
            let acc := regionBFS labeled w h (w * h + 1) [startIdx]
              ⟨st2.1.set startIdx 1, startX, startX, startY, startY, 0⟩
            if (acc.area : ℚ) < (w * h : ℚ) * 0.008 then (acc.visited, st2.2)
            else (acc.visited, st2.2 ++ [(acc.minX, acc.minY, acc.maxX, acc.maxY)])
          else st2)
        st)
    (List.replicate (w * h) 0, [])).2

/-- The eight room colors assigned cyclically at detection time. -/
def roomColors : List String :=
  ["#4a90d9", "#7ed321", "#f5a623", "#d0021b",
   "#9013fe", "#50e3c2", "#b8e986", "#f8e71c"]

/-- The grid-coordinate result of the analyzer before canvas rescaling
(Steps 1–4 of `analyzeFloorPlan` in the source): binarize with polarity
auto-detection, dilate walls by `DILATE_RADIUS = 6`, flood-fill the
exterior from the border (with fuel covering the at most
`w*h + |seed queue|` loop iterations the source performs), extract
sufficient-area components. -/
def detectBoxes (img : Image) : List (Nat × Nat × Nat × Nat) :=
  let w := img.width
  let h := img.height
  let dilated := dilateWalls (binaryOf img) w h 6
  let seeded := seedBorder dilated w h
  let labeled := extBFS w h (w * h + seeded.2.length) seeded.1 seeded.2
  scanRooms labeled w h

/-- Full analyzer (`analyzeFloorPlan` in the source): detect component
boxes, then rescale them to canvas coordinates
(`width = (maxX - minX) * scaleX`, `height = (maxY - minY) * scaleY` as in
the source).  `crypto.randomUUID()` is environment-supplied and modelled as
`""`; the n-th pushed room gets name `部屋(n+1)` and color
`roomColors[n % 8]`, matching the source's `rooms.length + 1` and
`colorIdx` counters. -/
noncomputable def analyzeFloorPlan (img : Image) (canvasWidth canvasHeight : ℝ) :
    List Room :=
  let scaleX := canvasWidth / (img.width : ℝ)
  let scaleY := canvasHeight / (img.height : ℝ)
  (detectBoxes img).enum.map fun ib =>
    ⟨"", "部屋" ++ toString (ib.1 + 1),
      (ib.2.1 : ℝ) * scaleX, (ib.2.2.1 : ℝ) * scaleY,
      ((ib.2.2.2.1 : ℝ) - (ib.2.1 : ℝ)) * scaleX,
      ((ib.2.2.2.2 : ℝ) - (ib.2.2.1 : ℝ)) * scaleY,
      roomColors.getD (ib.1 % roomColors.length) ""⟩

/-- Exact color inversion of an image: every channel `c` becomes `255 - c`. -/
def invertImage (img : Image) : Image :=
  ⟨img.width, img.height, fun x y =>
    let p := img.pixel x y
    (255 - p.1, 255 - p.2.1, 255 - p.2.2)⟩

/-! ### Integer twins of the three rational threshold tests

Rational arithmetic does not reduce inside the kernel, so for evaluating the
analyzer on concrete images we use integer forms of the three threshold
comparisons (each is the source comparison scaled by a power of ten, an
exact transformation proved by the bridging lemmas `binarize_eq_binarizeN`,
`binaryOf_eq_binaryOfN` and `scanRooms_eq_scanRoomsN` below). -/

/-- Integer twin of `binarize`: `0.299 r + 0.587 g + 0.114 b ≥ 200` scaled
by 1000. -/
def binarizeN (img : Image) : List Nat :=
  (List.range (img.width * img.height)).map fun i =>
    let p := img.pixel (i % img.width) (i / img.width)
    if 200000 ≤ 299 * p.1 + 587 * p.2.1 + 114 * p.2.2 then OPEN else WALL

/-- Integer twin of `binaryOf`: `openCount < w*h*0.3` scaled by 10. -/
def binaryOfN (img : Image) : List Nat :=
  let b := binarizeN img
  if 10 * openCount b < 3 * (img.width * img.height) then flipGrid b else b

/-- Integer twin of `scanRooms`: `area < w*h*0.008` scaled by 1000. -/
def scanRoomsN (labeled : List Nat) (w h : Nat) : List (Nat × Nat × Nat × Nat) :=
  ((List.range' 1 (h - 1 - 1)).foldl
    (fun st startY =>
      (List.range' 1 (w - 1 - 1)).foldl
        (fun st2 startX =>
          let startIdx := startY * w + startX
          if labeled.getD startIdx 0 = OPEN ∧ st2.1.getD startIdx 0 = 0 then
            let acc := regionBFS labeled w h (w * h + 1) [startIdx]
              ⟨st2.1.set startIdx 1, startX, startX, startY, startY, 0⟩
            if 1000 * acc.area < 8 * (w * h) then (acc.visited, st2.2)
            else (acc.visited, st2.2 ++ [(acc.minX, acc.minY, acc.maxX, acc.maxY)])
          else st2)
        st)
    (List.replicate (w * h) 0, [])).2

/-- The list of flat indices written by the dilation box of cell `i`
(the clipped square of radius `radius` around `(i % w, i / w)`), in the
write order of `dilateWalls`'s nested loops. -/
def boxIdxs (w h radius i : Nat) : List Nat :=
  (List.range' (i / w - radius)
      (min (h - 1) (i / w + radius) + 1 - (i / w - radius))).flatMap
    fun ny =>
      (List.range' (i % w - radius)
          (min (w - 1) (i % w + radius) + 1 - (i % w - radius))).map
        fun nx => ny * w + nx

/-- Decidable test: the dilation box of cell `i` covers index `j` and cell
`i` of `src` is a wall (the geometric tests come first so that the scan
short-circuits cheaply). -/
def wallCovers (src : List Nat) (w h radius j i : Nat) : Bool :=
  decide (i / w - radius ≤ j / w) && decide (j / w ≤ min (h - 1) (i / w + radius)) &&
    decide (i % w - radius ≤ j % w) && decide (j % w ≤ min (w - 1) (i % w + radius)) &&
    decide (src.getD i 0 = WALL)

/-- Pointwise form of `dilateWalls`: index `j` is a wall in the result iff
some cell's dilation box covers it, else it keeps its source value.  Proved
equal to the write-loop form in `dilateWalls_eq_pointwise`; used for kernel
evaluation, where the write-loop form nests list updates too deeply to
reduce. -/
def dilateWallsP (src : List Nat) (w h radius : Nat) : List Nat :=
  (List.range src.length).map fun j =>
    if (List.range (h * w)).any (wallCovers src w h radius j) then WALL
    else src.getD j 0

/-- Integer twin of `detectBoxes`, used for kernel evaluation. -/
def detectBoxesN (img : Image) : List (Nat × Nat × Nat × Nat) :=
  let w := img.width
  let h := img.height
  let dilated := dilateWalls (binaryOfN img) w h 6
  let seeded := seedBorder dilated w h
  let labeled := extBFS w h (w * h + seeded.2.length) seeded.1 seeded.2
  scanRoomsN labeled w h

/-! ## Specification-side definitions

These definitions follow the wording of the specification (not the code)
and are used to state refinement claims comparing code behaviour against
the spec's description. -/

/-- Spec wording: the half-open vertical extents
`[elevation, elevation + height)` of the two boxes strictly overlap
(touching exactly at a boundary is not an overlap). -/
def specVertOverlap (a b : Furniture) : Prop :=
  a.elevation < b.elevation + b.size.2.1 ∧ b.elevation < a.elevation + a.size.2.1

/-- Spec wording: the candidate separating axes of the SAT test are the
edge normals of both rectangles. -/
def specAxes (a b : List (ℝ × ℝ)) : List (ℝ × ℝ) :=
  (edgePairs a ++ edgePairs b).map fun pq => (-(pq.2.2 - pq.1.2), pq.2.1 - pq.1.1)

/-- Spec wording: the planar footprints strictly overlap under SAT — on
every candidate axis the two projection ranges strictly overlap; touching
exactly at an axis boundary (`max == min`) counts as non-colliding. -/
noncomputable def specPlanar (a b : List (ℝ × ℝ)) : Prop :=
  ∀ n ∈ specAxes a b,
    (project b n.1 n.2).1 < (project a n.1 n.2).2 ∧
    (project a n.1 n.2).1 < (project b n.1 n.2).2

/-- Spec wording for column placement: for a horizontal wall the center is
`(wall.canvasX, wall.canvasY ± depth/2)` — plus when the cursor's Y is `≥`
the wall's Y, minus otherwise, X unchanged; for a vertical wall the same
rule applies to X with the cursor's X, Y unchanged. -/
noncomputable def specColumnCenter (cursor : ℝ × ℝ) (wall : WallHit)
    (depthPx : ℝ) : ℝ × ℝ :=
  match wall.wallAxis with
  | Axis.h =>
      if cursor.2 ≥ wall.canvasY then (wall.canvasX, wall.canvasY + depthPx / 2)
      else (wall.canvasX, wall.canvasY - depthPx / 2)
  | Axis.v =>
      if cursor.1 ≥ wall.canvasX then (wall.canvasX + depthPx / 2, wall.canvasY)
      else (wall.canvasX - depthPx / 2, wall.canvasY)

/-- Replace only the Y component (`position[1]`) of a furniture box's
position, all other fields held fixed. -/
def setPosY (f : Furniture) (y : ℝ) : Furniture :=
  ⟨f.id, f.name, (f.position.1, y, f.position.2.2), f.size, f.color,
    f.rotation, f.elevation⟩

/-- The clamped projection parameter `t ∈ [0.05, 0.95]` computed by
`findNearestWall` for one segment. -/
noncomputable def segT (cx cy : ℝ) (seg : Seg) : ℝ :=
  max 0.05 (min 0.95
    (((cx - seg.x1) * (seg.x2 - seg.x1) + (cy - seg.y1) * (seg.y2 - seg.y1)) /
      ((seg.x2 - seg.x1) * (seg.x2 - seg.x1) + (seg.y2 - seg.y1) * (seg.y2 - seg.y1))))

/-- X coordinate of the candidate snap point of one segment. -/
noncomputable def segPx (cx cy : ℝ) (seg : Seg) : ℝ :=
  seg.x1 + segT cx cy seg * (seg.x2 - seg.x1)

/-- Y coordinate of the candidate snap point of one segment. -/
noncomputable def segPy (cx cy : ℝ) (seg : Seg) : ℝ :=
  seg.y1 + segT cx cy seg * (seg.y2 - seg.y1)

/-- The candidate distance examined by `findNearestWall` for one segment:
`none` for a degenerate (zero-length) segment, otherwise the distance from
the query point to the clamped closest point. -/
noncomputable def segDist (cx cy : ℝ) (seg : Seg) : Option ℝ :=
  if (seg.x2 - seg.x1) * (seg.x2 - seg.x1) + (seg.y2 - seg.y1) * (seg.y2 - seg.y1)
      = 0 then none
  else some (Real.sqrt ((cx - segPx cx cy seg) * (cx - segPx cx cy seg) +
    (cy - segPy cx cy seg) * (cy - segPy cx cy seg)))

/-- The list of distances of the candidate snap points examined by
`findNearestWall` (each valid segment's clamped closest point), in scan
order; used to characterise when the scan returns `null`. -/
noncomputable def candDists (rooms : List Room) (cx cy : ℝ) : List ℝ :=
  (rooms.flatMap segsOf).filterMap (segDist cx cy)

/-- The four corner points of a room rectangle. -/
def corners (room : Room) : List (ℝ × ℝ) :=
  [ (room.x, room.y), (room.x + room.width, room.y),
    (room.x, room.y + room.height), (room.x + room.width, room.y + room.height) ]

/-- The property C7 asserts of any returned wall hit: it is the clamped
closest point of one of a listed room's four boundary segments, with the
clamp parameter in `[0.05, 0.95]`, and it is not a corner of that room. -/
noncomputable def goodHit (rooms : List Room) (hit : WallHit) : Prop :=
  ∃ r ∈ rooms, ∃ seg ∈ segsOf r, ∃ t : ℝ,
    0.05 ≤ t ∧ t ≤ 0.95 ∧
    hit.canvasX = seg.x1 + t * (seg.x2 - seg.x1) ∧
    hit.canvasY = seg.y1 + t * (seg.y2 - seg.y1) ∧
    (hit.canvasX, hit.canvasY) ∉ corners r

/-! ## Concrete test data -/

/-- A 15×16 image with a black 1-pixel border and white interior.  After
wall dilation by radius 6 exactly the one-column region
`{(7,7), (7,8)}` stays open, whose pixel area 2 passes the minimum-area
threshold `15·16·0.008 = 1.92`; its bounding box has `minX = maxX`. -/
def imgBorder : Image :=
  ⟨15, 16, fun x y =>
    if x = 0 ∨ x = 14 ∨ y = 0 ∨ y = 15 then (0, 0, 0) else (255, 255, 255)⟩

/-- A 15×16 image with a mid-gray border (luma 100) and white interior.
Both the gray border (luma 100) and its inversion (luma 155) binarize to
`Wall`, so the inverted image binarizes to all-`Wall`, while the original
keeps the border/interior structure. -/
def imgGrayBorder : Image :=
  ⟨15, 16, fun x y =>
    if x = 0 ∨ x = 14 ∨ y = 0 ∨ y = 15 then (100, 100, 100) else (255, 255, 255)⟩

/-- The binarized (and polarity-corrected) grid shared by `imgBorder` and
`imgGrayBorder`: a border of walls around an open interior. -/
def bLit : List Nat :=
  (List.range 240).map fun i =>
    if i % 15 = 0 ∨ i % 15 = 14 ∨ i / 15 = 0 ∨ i / 15 = 15 then WALL else OPEN

/-- The wall-dilated grid of `bLit`: only cells 112 = (7,7) and
127 = (7,8) remain open. -/
def dLit : List Nat :=
  (List.range 240).map fun i => if i = 112 ∨ i = 127 then OPEN else WALL

/-- A 2×2 all-black image (every pixel binarizes to `Wall`), used as a
degenerate-input witness. -/
def imgBlack : Image := ⟨2, 2, fun _ _ => (0, 0, 0)⟩

/-- The all-open 15×16 grid (the polarity-corrected binarization of the
color inversion of `imgGrayBorder`, whose pixels all binarize to wall). -/
def oLit : List Nat := List.replicate 240 OPEN

/-- The all-exterior 15×16 grid: the flood-fill result of `oLit`. -/
def eLit : List Nat := List.replicate 240 EXTERIOR

/-- Demo furniture box A of the spec's concrete collision scenario. -/
noncomputable def demoA : Furniture :=
  ⟨"a", "A", (0, 0.5, 0), (2, 1, 2), "#fff", 0, 0⟩

/-- Demo furniture box B of the spec's concrete collision scenario:
overlaps `demoA`. -/
noncomputable def demoB : Furniture :=
  ⟨"b", "B", (1, 0.5, 0), (2, 1, 2), "#fff", 0, 0⟩

/-- The two-item demo furniture list. -/
noncomputable def demoItems : List Furniture := [demoA, demoB]

/-- The demo room of the spec's wall-snap scenario:
`(x=0, y=0, w=100, h=100)`. -/
noncomputable def demoRoom : Room :=
  ⟨"r1", "Room 1", 0, 0, 100, 100, "#4a90d9"⟩

/-! # Theorems -/

/-! ## Collision engine -/

theorem ite_false_true_iff {c : Prop} [Decidable c] :
    ((if c then false else true) = true) ↔ ¬c := by
  by_cases h : c <;> simp [h]

theorem satAxes_iff (poly a b : List (ℝ × ℝ)) :
    satAxes poly a b = true ↔
      ∀ pq ∈ edgePairs poly,
        (project b (-(pq.2.2 - pq.1.2)) (pq.2.1 - pq.1.1)).1 <
            (project a (-(pq.2.2 - pq.1.2)) (pq.2.1 - pq.1.1)).2 ∧
          (project a (-(pq.2.2 - pq.1.2)) (pq.2.1 - pq.1.1)).1 <
            (project b (-(pq.2.2 - pq.1.2)) (pq.2.1 - pq.1.1)).2 := by
  simp only [satAxes, List.all_eq_true]
  refine forall_congr' fun pq => imp_congr_right fun _ => ?_
  rw [ite_false_true_iff, not_or, not_le, not_le]

theorem sat2D_iff (a b : List (ℝ × ℝ)) :
    sat2D a b = true ↔ specPlanar a b := by
  simp only [sat2D, List.all_eq_true, List.forall_mem_cons, List.forall_mem_nil,
    and_true, specPlanar, specAxes, List.forall_mem_map, List.forall_mem_append,
    satAxes_iff]
  tauto

theorem sat2D_swap (a b : List (ℝ × ℝ)) : sat2D a b = sat2D b a := by
  rw [Bool.eq_iff_iff, sat2D_iff, sat2D_iff]
  unfold specPlanar
  constructor <;> intro hh n hn
  · have hm : n ∈ specAxes a b := by
      simp only [specAxes, List.mem_map, List.mem_append] at hn ⊢
      obtain ⟨pq, hpq, rfl⟩ := hn
      exact ⟨pq, hpq.symm, rfl⟩
    exact (hh n hm).symm
  · have hm : n ∈ specAxes b a := by
      simp only [specAxes, List.mem_map, List.mem_append] at hn ⊢
      obtain ⟨pq, hpq, rfl⟩ := hn
      exact ⟨pq, hpq.symm, rfl⟩
    exact (hh n hm).symm

theorem checkCollision_swap (a b : Furniture) :
    checkCollision a b = checkCollision b a := by
  simp only [checkCollision]
  by_cases h : a.elevation ≥ b.elevation + b.size.2.1 ∨
      b.elevation ≥ a.elevation + a.size.2.1
  · rw [if_pos h, if_pos h.symm]
  · rw [if_neg h, if_neg fun hc => h hc.symm]
    exact sat2D_swap _ _

/-- C1: `checkCollision a b` is `true` iff the half-open vertical extents
`[elevation, elevation+height)` strictly overlap and the planar footprints
strictly overlap under SAT over both rectangles' edge normals; touching
exactly at a boundary (vertical extents meeting, or an axis projection
with `max = min`) is non-colliding.  In particular two boxes sharing
exactly one face (which produces such a touching axis) report `false`. -/
theorem checkCollision_iff_spec (a b : Furniture) :
    checkCollision a b = true ↔
      specVertOverlap a b ∧ specPlanar (getFootprint a) (getFootprint b) := by
  simp only [checkCollision]
  split_ifs with h
  · constructor
    · intro hf; cases hf
    · rintro ⟨hv, -⟩
      rcases h with h | h
      · exact absurd hv.1 (not_lt.mpr h)
      · exact absurd hv.2 (not_lt.mpr h)
  · push_neg at h
    rw [sat2D_iff]
    exact (and_iff_right ⟨h.1, h.2⟩).symm

/-- C2: collision symmetry — `checkCollision a b = checkCollision b a` for
all furniture boxes `a`, `b`. -/
theorem checkCollision_symm (a b : Furniture) :
    checkCollision a b = checkCollision b a :=
  checkCollision_swap a b

theorem allPairs_map {α β : Type} (g : α → β) (l : List α) :
    allPairs (l.map g) = (allPairs l).map fun p => (g p.1, g p.2) := by
  induction l with
  | nil => rfl
  | cons x xs ih =>
      simp only [List.map_cons, allPairs, ih, List.map_append, List.map_map]
      rfl

/-- C10: noninterference on `position.y` — replacing the Y component of
either box's position (all other fields fixed) never changes
`checkCollision`, and rewriting every item's `position.y` leaves
`getCollidingIds` unchanged: the collision test reads only
`position[0]`, `position[2]`, `size`, `rotation` and `elevation`. -/
theorem checkCollision_posY_noninterference :
    (∀ (a b : Furniture) (ya yb : ℝ),
        checkCollision (setPosY a ya) b = checkCollision a b ∧
        checkCollision a (setPosY b yb) = checkCollision a b ∧
        checkCollision (setPosY a ya) (setPosY b yb) = checkCollision a b) ∧
      ∀ (items : List Furniture) (rho : Furniture → ℝ),
        getCollidingIds (items.map fun f => setPosY f (rho f)) =
          getCollidingIds items := by
  refine ⟨fun a b ya yb => ⟨rfl, rfl, rfl⟩, fun items rho => ?_⟩
  simp only [getCollidingIds, allPairs_map, List.foldl_map]
  rfl

theorem mem_foldl_collect (x : String) :
    ∀ (pairs : List (Furniture × Furniture)) (s : Finset String),
      (x ∈ pairs.foldl
          (fun ids ab =>
            if checkCollision ab.1 ab.2 then insert ab.1.id (insert ab.2.id ids)
            else ids) s) ↔
        x ∈ s ∨ ∃ p ∈ pairs, checkCollision p.1 p.2 = true ∧
          (p.1.id = x ∨ p.2.id = x) := by
  intro pairs
  induction pairs with
  | nil => intro s; simp
  | cons p ps ih =>
      intro s
      rw [List.foldl_cons, ih]
      by_cases hc : checkCollision p.1 p.2 = true
      · simp only [hc, if_pos, Finset.mem_insert, List.mem_cons]
        constructor
        · rintro ((h | h | h) | ⟨q, hq, hcq, hid⟩)
          · exact Or.inr ⟨p, Or.inl rfl, hc, Or.inl h.symm⟩
          · exact Or.inr ⟨p, Or.inl rfl, hc, Or.inr h.symm⟩
          · exact Or.inl h
          · exact Or.inr ⟨q, Or.inr hq, hcq, hid⟩
        · rintro (h | ⟨q, (rfl | hq), hcq, hid⟩)
          · exact Or.inl (Or.inr (Or.inr h))
          · rcases hid with h | h
            · exact Or.inl (Or.inl h.symm)
            · exact Or.inl (Or.inr (Or.inl h.symm))
          · exact Or.inr ⟨q, hq, hcq, hid⟩
      · rw [if_neg (by simpa using hc)]
        simp only [List.mem_cons]
        constructor
        · rintro (h | ⟨q, hq, hcq, hid⟩)
          · exact Or.inl h
          · exact Or.inr ⟨q, Or.inr hq, hcq, hid⟩
        · rintro (h | ⟨q, (rfl | hq), hcq, hid⟩)
          · exact Or.inl h
          · exact absurd hcq hc
          · exact Or.inr ⟨q, hq, hcq, hid⟩

theorem mem_allPairs_iff {α : Type} (p : α × α) :
    ∀ l : List α, p ∈ allPairs l ↔ List.Sublist [p.1, p.2] l := by
  intro l
  induction l with
  | nil => simp [allPairs]
  | cons x xs ih =>
      simp only [allPairs, List.mem_append, List.mem_map, ih]
      constructor
      · rintro (⟨y, hy, rfl⟩ | h)
        · exact List.cons_sublist_cons.mpr (List.singleton_sublist.mpr hy)
        · exact h.trans (List.sublist_cons_self x xs)
      · intro h
        rcases List.sublist_cons_iff.mp h with h | ⟨r, hr, hrs⟩
        · exact Or.inr h
        · left
          obtain ⟨h1, h2⟩ := List.cons_eq_cons.mp hr
          refine ⟨p.2, ?_, ?_⟩
          · have hsx : List.Sublist [p.2] xs := h2 ▸ hrs
            exact List.singleton_sublist.mp hsx
          · rw [Prod.ext_iff]; exact ⟨h1.symm, rfl⟩

theorem pair_order_of_mem {α : Type} {x y : α} :
    ∀ {l : List α}, x ∈ l → y ∈ l → x ≠ y → List.Sublist [x, y] l ∨ List.Sublist [y, x] l := by
  intro l
  induction l with
  | nil => intro h _ _; cases h
  | cons a as ih =>
      intro hx hy hne
      by_cases hxa : x = a
      · subst hxa
        have hy2 : y ∈ as := by
          rcases List.mem_cons.mp hy with h | h
          · exact absurd h.symm hne
          · exact h
        exact Or.inl (List.cons_sublist_cons.mpr (List.singleton_sublist.mpr hy2))
      · by_cases hya : y = a
        · subst hya
          have hx2 : x ∈ as := by
            rcases List.mem_cons.mp hx with h | h
            · exact absurd h hxa
            · exact h
          exact Or.inr (List.cons_sublist_cons.mpr (List.singleton_sublist.mpr hx2))
        · have hx2 : x ∈ as := by
            rcases List.mem_cons.mp hx with h | h
            · exact absurd h hxa
            · exact h
          have hy2 : y ∈ as := by
            rcases List.mem_cons.mp hy with h | h
            · exact absurd h hya
            · exact h
          rcases ih hx2 hy2 hne with h | h
          · exact Or.inl (h.trans (List.sublist_cons_self a as))
          · exact Or.inr (h.trans (List.sublist_cons_self a as))

/-- C3: for a furniture list with pairwise-distinct ids, an item's id is in
`getCollidingIds items` iff some other item of the list collides with it —
the set contains exactly the ids of items involved in at least one
pairwise collision. -/
theorem mem_getCollidingIds_iff (items : List Furniture)
    (hids : (items.map Furniture.id).Nodup) (x : Furniture) (hx : x ∈ items) :
    x.id ∈ getCollidingIds items ↔
      ∃ y ∈ items, y ≠ x ∧ checkCollision x y = true := by
  unfold getCollidingIds
  rw [mem_foldl_collect]
  simp only [Finset.not_mem_empty, false_or]
  constructor
  · rintro ⟨p, hp, hcol, hid⟩
    have hsub : List.Sublist [p.1, p.2] items := (mem_allPairs_iff p items).mp hp
    have h1 : p.1 ∈ items := hsub.subset (by simp)
    have h2 : p.2 ∈ items := hsub.subset (by simp)
    have hne : p.1.id ≠ p.2.id := by
      have hnd : ([p.1, p.2].map Furniture.id).Nodup :=
        hids.sublist (hsub.map Furniture.id)
      simpa using hnd
    have hinj := List.inj_on_of_nodup_map hids
    rcases hid with h | h
    · have hx1 : p.1 = x := hinj h1 hx h
      refine ⟨p.2, h2, ?_, ?_⟩
      · intro he; exact hne (by rw [hx1, he])
      · rw [← hx1]; exact hcol
    · have hx2 : p.2 = x := hinj h2 hx h
      refine ⟨p.1, h1, ?_, ?_⟩
      · intro he; exact hne (by rw [hx2, he])
      · rw [← hx2, checkCollision_swap]; exact hcol
  · rintro ⟨y, hy, hyx, hcol⟩
    have hne : x ≠ y := fun he => hyx he.symm
    rcases pair_order_of_mem hx hy hne with h | h
    · exact ⟨(x, y), (mem_allPairs_iff (x, y) items).mpr h, hcol, Or.inl rfl⟩
    · refine ⟨(y, x), (mem_allPairs_iff (y, x) items).mpr h, ?_, Or.inr rfl⟩
      show checkCollision y x = true
      rw [checkCollision_swap]; exact hcol

/-- Witness for C3 at the spec's concrete scenario: the two-item demo list
(distinct ids `a`, `b`). -/
theorem mem_getCollidingIds_iff_witness :
    "a" ∈ getCollidingIds demoItems ↔
      ∃ y ∈ demoItems, y ≠ demoA ∧ checkCollision demoA y = true :=
  mem_getCollidingIds_iff demoItems (by simp [demoItems, demoA, demoB]) demoA
    (by simp [demoItems])

/-! ## Wall snapping -/

/-- C9: `columnEdgeCenter` agrees with the spec's description — the center
is offset from the wall point by exactly `depth/2` perpendicular to the
wall, towards the side of the wall the cursor occupies, with the other
coordinate unchanged. -/
theorem columnEdgeCenter_spec (cursor : ℝ × ℝ) (wall : WallHit) (depthPx : ℝ) :
    columnEdgeCenter cursor wall depthPx = specColumnCenter cursor wall depthPx := by
  obtain ⟨wx, wy, ax⟩ := wall
  cases ax <;>
    · simp only [columnEdgeCenter, specColumnCenter]
      split_ifs <;> simp [sub_eq_add_neg]

theorem scanSeg_none (cx cy : ℝ) (st : Option WallHit × ℝ) (seg : Seg)
    (h : segDist cx cy seg = none) : scanSeg cx cy st seg = st := by
  simp only [segDist] at h
  split_ifs at h with h0
  simp only [scanSeg]
  rw [if_pos h0]

theorem scanSeg_keep (cx cy : ℝ) (st : Option WallHit × ℝ) (seg : Seg) (d : ℝ)
    (h : segDist cx cy seg = some d) (hge : ¬ d < st.2) :
    scanSeg cx cy st seg = st := by
  simp only [segDist, segPx, segPy, segT] at h
  split_ifs at h with h0
  have hd := Option.some.inj h
  simp only [scanSeg]
  rw [if_neg h0, hd, if_neg hge]

theorem scanSeg_upd (cx cy : ℝ) (st : Option WallHit × ℝ) (seg : Seg) (d : ℝ)
    (h : segDist cx cy seg = some d) (hlt : d < st.2) :
    scanSeg cx cy st seg =
      (some ⟨segPx cx cy seg, segPy cx cy seg, seg.axis⟩, d) := by
  simp only [segDist, segPx, segPy, segT] at h ⊢
  split_ifs at h with h0
  have hd := Option.some.inj h
  simp only [scanSeg]
  rw [if_neg h0, hd, if_pos hlt]

theorem scanSeg_some (cx cy : ℝ) (st : Option WallHit × ℝ) (seg : Seg) (hit : WallHit)
    (h : st.1 = some hit) : ∃ hit2, (scanSeg cx cy st seg).1 = some hit2 := by
  cases hd : segDist cx cy seg with
  | none => exact ⟨hit, by rw [scanSeg_none cx cy st seg hd]; exact h⟩
  | some d =>
      by_cases hlt : d < st.2
      · exact ⟨_, by rw [scanSeg_upd cx cy st seg d hd hlt]⟩
      · exact ⟨hit, by rw [scanSeg_keep cx cy st seg d hd hlt]; exact h⟩

theorem foldl_scan_some (cx cy : ℝ) :
    ∀ (segs : List Seg) (st : Option WallHit × ℝ) (hit : WallHit),
      st.1 = some hit →
      ∃ hit2, (segs.foldl (scanSeg cx cy) st).1 = some hit2 := by
  intro segs
  induction segs with
  | nil => intro st hit h; exact ⟨hit, h⟩
  | cons s ss ih =>
      intro st hit h
      obtain ⟨hit2, h2⟩ := scanSeg_some cx cy st s hit h
      exact ih (scanSeg cx cy st s) hit2 h2

theorem scanSeg_good (rooms : List Room) (cx cy : ℝ) (st : Option WallHit × ℝ)
    (seg : Seg) (r : Room) (hr : r ∈ rooms) (hw : 0 < r.width) (hh : 0 < r.height)
    (hs : seg ∈ segsOf r)
    (hst : ∀ hit, st.1 = some hit → goodHit rooms hit) :
    ∀ hit, (scanSeg cx cy st seg).1 = some hit → goodHit rooms hit := by
  intro hit hhit
  cases hd : segDist cx cy seg with
  | none =>
      rw [scanSeg_none cx cy st seg hd] at hhit
      exact hst hit hhit
  | some d =>
      by_cases hlt : d < st.2
      · rw [scanSeg_upd cx cy st seg d hd hlt] at hhit
        simp only [Option.some.injEq] at hhit
        subst hhit
        have ht05 : (0.05 : ℝ) ≤ segT cx cy seg := le_max_left _ _
        have ht95 : segT cx cy seg ≤ 0.95 := max_le (by norm_num) (min_le_left _ _)
        have ht0 : (0 : ℝ) < segT cx cy seg := by linarith
        have ht1 : segT cx cy seg < 1 := by linarith
        simp only [segsOf, List.mem_cons, List.not_mem_nil, or_false] at hs
        rcases hs with rfl | rfl | rfl | rfl
        · refine ⟨r, hr, ⟨r.x, r.y, r.x + r.width, r.y, Axis.h⟩,
            by simp [segsOf], segT cx cy _, ht05, ht95, rfl, rfl, ?_⟩
          simp only [segPx, segPy, corners, List.mem_cons, List.not_mem_nil,
            or_false, Prod.mk.injEq, not_or]
          refine ⟨fun hc => ?_, fun hc => ?_, fun hc => ?_, fun hc => ?_⟩
          · obtain ⟨h1, -⟩ := hc
            nlinarith [mul_pos ht0 hw]
          · obtain ⟨h1, -⟩ := hc
            nlinarith [mul_pos (show (0:ℝ) < 1 - segT cx cy ⟨r.x, r.y, r.x + r.width, r.y, Axis.h⟩ by linarith) hw]
          · obtain ⟨-, h2⟩ := hc
            nlinarith
          · obtain ⟨-, h2⟩ := hc
            nlinarith
        · refine ⟨r, hr, ⟨r.x, r.y + r.height, r.x + r.width, r.y + r.height, Axis.h⟩,
            by simp [segsOf], segT cx cy _, ht05, ht95, rfl, rfl, ?_⟩
          simp only [segPx, segPy, corners, List.mem_cons, List.not_mem_nil,
            or_false, Prod.mk.injEq, not_or]
          refine ⟨fun hc => ?_, fun hc => ?_, fun hc => ?_, fun hc => ?_⟩
          · obtain ⟨-, h2⟩ := hc
            nlinarith
          · obtain ⟨-, h2⟩ := hc
            nlinarith
          · obtain ⟨h1, -⟩ := hc
            nlinarith [mul_pos ht0 hw]
          · obtain ⟨h1, -⟩ := hc
            nlinarith [mul_pos (show (0:ℝ) < 1 - segT cx cy ⟨r.x, r.y + r.height, r.x + r.width, r.y + r.height, Axis.h⟩ by linarith) hw]
        · refine ⟨r, hr, ⟨r.x, r.y, r.x, r.y + r.height, Axis.v⟩,
            by simp [segsOf], segT cx cy _, ht05, ht95, rfl, rfl, ?_⟩
          simp only [segPx, segPy, corners, List.mem_cons, List.not_mem_nil,
            or_false, Prod.mk.injEq, not_or]
          refine ⟨fun hc => ?_, fun hc => ?_, fun hc => ?_, fun hc => ?_⟩
          · obtain ⟨-, h2⟩ := hc
            nlinarith [mul_pos ht0 hh]
          · obtain ⟨h1, -⟩ := hc
            nlinarith
          · obtain ⟨-, h2⟩ := hc
            nlinarith [mul_pos (show (0:ℝ) < 1 - segT cx cy ⟨r.x, r.y, r.x, r.y + r.height, Axis.v⟩ by linarith) hh]
          · obtain ⟨h1, -⟩ := hc
            nlinarith
        · refine ⟨r, hr, ⟨r.x + r.width, r.y, r.x + r.width, r.y + r.height, Axis.v⟩,
            by simp [segsOf], segT cx cy _, ht05, ht95, rfl, rfl, ?_⟩
          simp only [segPx, segPy, corners, List.mem_cons, List.not_mem_nil,
            or_false, Prod.mk.injEq, not_or]
          refine ⟨fun hc => ?_, fun hc => ?_, fun hc => ?_, fun hc => ?_⟩
          · obtain ⟨h1, -⟩ := hc
            nlinarith
          · obtain ⟨-, h2⟩ := hc
            nlinarith [mul_pos ht0 hh]
          · obtain ⟨h1, -⟩ := hc
            nlinarith
          · obtain ⟨-, h2⟩ := hc
            nlinarith [mul_pos (show (0:ℝ) < 1 - segT cx cy ⟨r.x + r.width, r.y, r.x + r.width, r.y + r.height, Axis.v⟩ by linarith) hh]
      · rw [scanSeg_keep cx cy st seg d hd hlt] at hhit
        exact hst hit hhit

theorem foldl_scan_good (rooms : List Room) (cx cy : ℝ) :
    ∀ (segs : List Seg) (st : Option WallHit × ℝ),
      (∀ s ∈ segs, ∃ r, r ∈ rooms ∧ (0 < r.width ∧ 0 < r.height) ∧ s ∈ segsOf r) →
      (∀ hit, st.1 = some hit → goodHit rooms hit) →
      ∀ hit, (segs.foldl (scanSeg cx cy) st).1 = some hit → goodHit rooms hit := by
  intro segs
  induction segs with
  | nil => intro st _ hst; exact hst
  | cons s ss ih =>
      intro st hmem hst
      rw [List.foldl_cons]
      refine ih _ (fun s2 hs2 => hmem s2 (List.mem_cons_of_mem _ hs2)) ?_
      obtain ⟨r, hr, ⟨hw2, hh2⟩, hsr⟩ := hmem s (List.mem_cons_self _ _)
      exact scanSeg_good rooms cx cy st s r hr hw2 hh2 hsr hst

/-- C7: corner exclusion — for a non-empty room list in which every room
has positive width and height, any `WallHit` returned by `findNearestWall`
lies on one of a room's four boundary segments at a clamp parameter
`t ∈ [0.05, 0.95]`, and is never exactly a corner of that room. -/
theorem findNearestWall_hit_on_segment (rooms : List Room) (cx cy maxD : ℝ)
    (hne : rooms ≠ []) (hpos : ∀ r ∈ rooms, 0 < r.width ∧ 0 < r.height) :
    match findNearestWall rooms cx cy maxD with
    | none => True
    | some hit => goodHit rooms hit := by
  cases hfw : findNearestWall rooms cx cy maxD with
  | none => trivial
  | some hit =>
      show goodHit rooms hit
      unfold findNearestWall at hfw
      refine foldl_scan_good rooms cx cy (rooms.flatMap segsOf) (none, maxD) ?_ ?_ hit hfw
      · intro s hs
        rw [List.mem_flatMap] at hs
        obtain ⟨r, hr, hsr⟩ := hs
        exact ⟨r, hr, hpos r hr, hsr⟩
      · intro hit2 h2
        exact Option.noConfusion h2

/-- Witness for C7 at the spec's concrete scenario: one 100×100 room at the
origin, query point `(50, 2)`, snap distance 14. -/
theorem findNearestWall_hit_on_segment_witness :
    match findNearestWall [demoRoom] 50 2 14 with
    | none => True
    | some hit => goodHit [demoRoom] hit :=
  findNearestWall_hit_on_segment [demoRoom] 50 2 14 (by simp)
    (by
      intro r hr
      simp only [List.mem_singleton] at hr
      subst hr
      constructor <;> norm_num [demoRoom])

theorem foldl_scan_none_iff (cx cy : ℝ) :
    ∀ (segs : List Seg) (st : Option WallHit × ℝ),
      ((segs.foldl (scanSeg cx cy) st).1 = none ↔
        st.1 = none ∧ ∀ d ∈ segs.filterMap (segDist cx cy), st.2 ≤ d) := by
  intro segs
  induction segs with
  | nil => intro st; simp
  | cons s ss ih =>
      intro st
      rw [List.foldl_cons, ih (scanSeg cx cy st s)]
      cases hd : segDist cx cy s with
      | none =>
          rw [scanSeg_none cx cy st s hd, List.filterMap_cons_none hd]
      | some d =>
          rw [List.filterMap_cons_some hd]
          by_cases hlt : d < st.2
          · rw [scanSeg_upd cx cy st s d hd hlt]
            constructor
            · rintro ⟨h1, -⟩
              exact Option.noConfusion h1
            · rintro ⟨-, h2⟩
              have := h2 d (List.mem_cons_self _ _)
              exact absurd hlt (not_lt.mpr this)
          · rw [scanSeg_keep cx cy st s d hd hlt]
            push_neg at hlt
            constructor
            · rintro ⟨h1, h2⟩
              refine ⟨h1, fun d2 hd2 => ?_⟩
              rcases List.mem_cons.mp hd2 with rfl | hm
              · exact hlt
              · exact h2 d2 hm
            · rintro ⟨h1, h2⟩
              exact ⟨h1, fun d2 hm => h2 d2 (List.mem_cons_of_mem _ hm)⟩

/-- C8 (amended): `findNearestWall` returns `null` exactly when no
candidate snap point lies strictly within `maxDistance` (in particular it
always returns `null` for an empty room list); a candidate is kept only if
it is strictly closer than `maxDistance`, so a candidate at distance
exactly `maxDistance` is discarded. -/
theorem findNearestWall_none_iff (rooms : List Room) (cx cy maxD : ℝ) :
    findNearestWall rooms cx cy maxD = none ↔
      ∀ d ∈ candDists rooms cx cy, maxD ≤ d := by
  unfold findNearestWall candDists
  rw [foldl_scan_none_iff]
  simp

theorem segDist_demo_top : segDist 50 14 (⟨0, 0, 100, 0, Axis.h⟩ : Seg) = some 14 := by
  simp only [segDist]
  rw [if_neg (by norm_num)]
  congr 1
  rw [show (50 - segPx 50 14 ⟨0, 0, 100, 0, Axis.h⟩) *
        (50 - segPx 50 14 ⟨0, 0, 100, 0, Axis.h⟩) +
        (14 - segPy 50 14 ⟨0, 0, 100, 0, Axis.h⟩) *
        (14 - segPy 50 14 ⟨0, 0, 100, 0, Axis.h⟩) = 196 from by
    norm_num [segPx, segPy, segT, min_def, max_def]]
  rw [show (196 : ℝ) = 14 ^ 2 from by norm_num]
  exact Real.sqrt_sq (by norm_num)

theorem segDist_demo_bottom :
    segDist 50 14 (⟨0, 100, 100, 100, Axis.h⟩ : Seg) = some 86 := by
  simp only [segDist]
  rw [if_neg (by norm_num)]
  congr 1
  rw [show (50 - segPx 50 14 ⟨0, 100, 100, 100, Axis.h⟩) *
        (50 - segPx 50 14 ⟨0, 100, 100, 100, Axis.h⟩) +
        (14 - segPy 50 14 ⟨0, 100, 100, 100, Axis.h⟩) *
        (14 - segPy 50 14 ⟨0, 100, 100, 100, Axis.h⟩) = 7396 from by
    norm_num [segPx, segPy, segT, min_def, max_def]]
  rw [show (7396 : ℝ) = 86 ^ 2 from by norm_num]
  exact Real.sqrt_sq (by norm_num)

theorem segDist_demo_left :
    segDist 50 14 (⟨0, 0, 0, 100, Axis.v⟩ : Seg) = some 50 := by
  simp only [segDist]
  rw [if_neg (by norm_num)]
  congr 1
  rw [show (50 - segPx 50 14 ⟨0, 0, 0, 100, Axis.v⟩) *
        (50 - segPx 50 14 ⟨0, 0, 0, 100, Axis.v⟩) +
        (14 - segPy 50 14 ⟨0, 0, 0, 100, Axis.v⟩) *
        (14 - segPy 50 14 ⟨0, 0, 0, 100, Axis.v⟩) = 2500 from by
    norm_num [segPx, segPy, segT, min_def, max_def]]
  rw [show (2500 : ℝ) = 50 ^ 2 from by norm_num]
  exact Real.sqrt_sq (by norm_num)

theorem segDist_demo_right :
    segDist 50 14 (⟨100, 0, 100, 100, Axis.v⟩ : Seg) = some 50 := by
  simp only [segDist]
  rw [if_neg (by norm_num)]
  congr 1
  rw [show (50 - segPx 50 14 ⟨100, 0, 100, 100, Axis.v⟩) *
        (50 - segPx 50 14 ⟨100, 0, 100, 100, Axis.v⟩) +
        (14 - segPy 50 14 ⟨100, 0, 100, 100, Axis.v⟩) *
        (14 - segPy 50 14 ⟨100, 0, 100, 100, Axis.v⟩) = 2500 from by
    norm_num [segPx, segPy, segT, min_def, max_def]]
  rw [show (2500 : ℝ) = 50 ^ 2 from by norm_num]
  exact Real.sqrt_sq (by norm_num)

theorem segsOf_demoRoom :
    segsOf demoRoom =
      [⟨0, 0, 100, 0, Axis.h⟩, ⟨0, 100, 100, 100, Axis.h⟩,
        ⟨0, 0, 0, 100, Axis.v⟩, ⟨100, 0, 100, 100, Axis.v⟩] := by
  norm_num [segsOf, demoRoom]

/-- Counterexample to C8 as stated: with the single demo room and query
point `(50, 14)` at `maxDistance = 14`, the top wall's candidate snap point
`(50, 0)` lies at distance exactly `14 = maxDistance`, yet `findNearestWall`
returns `null` — a candidate at distance exactly `maxDistance` IS
discarded (the comparison `d < bestDist` is strict against the initial
`bestDist = maxDistance`). -/
theorem findNearestWall_boundary_null :
    findNearestWall [demoRoom] 50 14 14 = none ∧
      (14 : ℝ) ∈ candDists [demoRoom] 50 14 := by
  have hcd : candDists [demoRoom] 50 14 = [14, 86, 50, 50] := by
    unfold candDists
    rw [show ([demoRoom].flatMap segsOf) = segsOf demoRoom from by simp]
    rw [segsOf_demoRoom]
    rw [List.filterMap_cons_some segDist_demo_top,
      List.filterMap_cons_some segDist_demo_bottom,
      List.filterMap_cons_some segDist_demo_left,
      List.filterMap_cons_some segDist_demo_right,
      List.filterMap_nil]
  constructor
  · unfold findNearestWall
    rw [foldl_scan_none_iff]
    refine ⟨rfl, fun d hd => ?_⟩
    have : ([demoRoom].flatMap segsOf).filterMap (segDist 50 14) = [14, 86, 50, 50] := hcd
    rw [this] at hd
    simp only [List.mem_cons, List.not_mem_nil, or_false] at hd
    rcases hd with rfl | rfl | rfl | rfl <;> norm_num
  · rw [hcd]; simp

/-! ## Raster analyzer: rational thresholds versus their integer twins -/

theorem luma_ge_iff (p : Nat × Nat × Nat) :
    (200 ≤ luma p) ↔ 200000 ≤ 299 * p.1 + 587 * p.2.1 + 114 * p.2.2 := by
  unfold luma
  rw [show (0.299 : ℚ) = 299 / 1000 from by norm_num,
    show (0.587 : ℚ) = 587 / 1000 from by norm_num,
    show (0.114 : ℚ) = 114 / 1000 from by norm_num]
  constructor
  · intro h
    have h2 : (200000 : ℚ) ≤ 299 * p.1 + 587 * p.2.1 + 114 * p.2.2 := by linarith
    exact_mod_cast h2
  · intro h
    have h2 : (200000 : ℚ) ≤ 299 * p.1 + 587 * p.2.1 + 114 * p.2.2 := by
      exact_mod_cast h
    linarith

theorem binarize_eq (img : Image) : binarize img = binarizeN img := by
  unfold binarize binarizeN
  simp only [luma_ge_iff]

theorem polarity_iff (oc n : Nat) :
    ((oc : ℚ) < (n : ℚ) * 0.3) ↔ 10 * oc < 3 * n := by
  rw [show (0.3 : ℚ) = 3 / 10 from by norm_num]
  constructor
  · intro hlt
    have h2 : (10 * oc : ℚ) < 3 * n := by linarith
    exact_mod_cast h2
  · intro hlt
    have h2 : (10 * oc : ℚ) < 3 * n := by exact_mod_cast hlt
    linarith

theorem binaryOf_eq (img : Image) : binaryOf img = binaryOfN img := by
  unfold binaryOf binaryOfN
  rw [binarize_eq]
  refine if_congr ?_ rfl rfl
  constructor
  · intro hlt
    have h2 : (10 * openCount (binarizeN img) : ℚ) <
        3 * (img.width * img.height) := by push_cast at hlt ⊢; linarith
    exact_mod_cast h2
  · intro hlt
    have h2 : (10 * openCount (binarizeN img) : ℚ) <
        3 * (img.width * img.height) := by exact_mod_cast hlt
    push_cast at h2 ⊢; linarith

theorem area_iff (area w h : Nat) :
    ((area : ℚ) < (w : ℚ) * (h : ℚ) * 0.008) ↔ 1000 * area < 8 * (w * h) := by
  rw [show (0.008 : ℚ) = 8 / 1000 from by norm_num]
  constructor
  · intro hlt
    have h2 : (1000 * area : ℚ) < 8 * (w * h) := by push_cast; linarith
    exact_mod_cast h2
  · intro hlt
    have h2 : (1000 * area : ℚ) < 8 * (w * h) := by exact_mod_cast hlt
    push_cast at h2
    linarith

theorem scanRooms_eq (labeled : List Nat) (w h : Nat) :
    scanRooms labeled w h = scanRoomsN labeled w h := by
  unfold scanRooms scanRoomsN
  simp only [area_iff]

theorem detectBoxes_eq (img : Image) : detectBoxes img = detectBoxesN img := by
  unfold detectBoxes detectBoxesN
  rw [binaryOf_eq, scanRooms_eq]

/-! ## Raster analyzer: the write-loop dilation equals its pointwise form -/

theorem idx_decomp (w i : Nat) : i / w * w + i % w = i := by
  rw [Nat.mul_comm]
  exact Nat.div_add_mod i w

theorem foldl_flatMap_eq {α β σ : Type} (l : List α) (g : α → List β)
    (f : σ → β → σ) (init : σ) :
    (l.flatMap g).foldl f init = l.foldl (fun acc a => (g a).foldl f acc) init := by
  induction l generalizing init with
  | nil => rfl
  | cons a as ih => rw [List.flatMap_cons, List.foldl_append, List.foldl_cons, ih]

theorem foldl_setWall_getD :
    ∀ (idxs : List Nat) (d : List Nat) (j : Nat),
      (idxs.foldl (fun acc i => acc.set i WALL) d).getD j 0 =
        if j ∈ idxs then WALL else d.getD j 0 := by
  intro idxs
  induction idxs with
  | nil => intro d j; simp
  | cons i is ih =>
      intro d j
      rw [List.foldl_cons, ih]
      by_cases hji : j ∈ is
      · rw [if_pos hji, if_pos (List.mem_cons_of_mem _ hji)]
      · rw [if_neg hji]
        by_cases hj : j = i
        · subst hj
          rw [if_pos (List.mem_cons_self _ _)]
          rcases lt_or_ge j d.length with hlen | hlen
          · rw [List.getD_eq_getElem?_getD, List.getElem?_set_self hlen]
            rfl
          · rw [List.set_eq_of_length_le hlen, List.getD_eq_default _ _ hlen]
            rfl
        · rw [if_neg (by
            intro hmem
            rcases List.mem_cons.mp hmem with h | h
            · exact hj h
            · exact hji h)]
          rw [List.getD_eq_getElem?_getD,
            List.getElem?_set_ne (fun he => hj he.symm),
            ← List.getD_eq_getElem?_getD]

theorem foldl_setWall_length :
    ∀ (idxs : List Nat) (d : List Nat),
      (idxs.foldl (fun acc i => acc.set i WALL) d).length = d.length := by
  intro idxs
  induction idxs with
  | nil => intro d; rfl
  | cons i is ih => intro d; rw [List.foldl_cons, ih, List.length_set]

theorem dilateWalls_eq_foldl_boxes (src : List Nat) (w h radius : Nat) :
    dilateWalls src w h radius =
      (List.range (h * w)).foldl
        (fun dst i =>
          if src.getD i 0 = WALL then
            (boxIdxs w h radius i).foldl (fun d2 k => d2.set k WALL) dst
          else dst)
        src := by
  unfold dilateWalls
  congr 1
  funext dst i
  dsimp only
  rw [idx_decomp]
  by_cases hwall : src.getD i 0 = WALL
  · rw [if_pos hwall, if_pos hwall]
    unfold boxIdxs
    rw [foldl_flatMap_eq]
    congr 1
    funext acc ny
    rw [List.foldl_map]
  · rw [if_neg hwall, if_neg hwall]

theorem foldl_boxes_getD (src : List Nat) (w h radius : Nat) :
    ∀ (cells : List Nat) (d : List Nat) (j : Nat),
      ((cells.foldl
          (fun dst i =>
            if src.getD i 0 = WALL then
              (boxIdxs w h radius i).foldl (fun d2 k => d2.set k WALL) dst
            else dst)
          d).getD j 0) =
        if ∃ i ∈ cells, src.getD i 0 = WALL ∧ j ∈ boxIdxs w h radius i then WALL
        else d.getD j 0 := by
  intro cells
  induction cells with
  | nil => intro d j; simp
  | cons i is ih =>
      intro d j
      rw [List.foldl_cons, ih]
      by_cases h2 : ∃ k ∈ is, src.getD k 0 = WALL ∧ j ∈ boxIdxs w h radius k
      · rw [if_pos h2]
        obtain ⟨k, hk, hkprop⟩ := h2
        rw [if_pos ⟨k, List.mem_cons_of_mem _ hk, hkprop⟩]
      · rw [if_neg h2]
        by_cases h1 : src.getD i 0 = WALL
        · rw [if_pos h1, foldl_setWall_getD]
          by_cases h3 : j ∈ boxIdxs w h radius i
          · rw [if_pos h3, if_pos ⟨i, List.mem_cons_self _ _, h1, h3⟩]
          · rw [if_neg h3, if_neg (by
              rintro ⟨k, hk, hkw, hkj⟩
              rcases List.mem_cons.mp hk with rfl | hk2
              · exact h3 hkj
              · exact h2 ⟨k, hk2, hkw, hkj⟩)]
        · rw [if_neg h1, if_neg (by
            rintro ⟨k, hk, hkw, hkj⟩
            rcases List.mem_cons.mp hk with rfl | hk2
            · exact h1 hkw
            · exact h2 ⟨k, hk2, hkw, hkj⟩)]

theorem foldl_boxes_length (src : List Nat) (w h radius : Nat) :
    ∀ (cells : List Nat) (d : List Nat),
      ((cells.foldl
          (fun dst i =>
            if src.getD i 0 = WALL then
              (boxIdxs w h radius i).foldl (fun d2 k => d2.set k WALL) dst
            else dst)
          d).length) = d.length := by
  intro cells
  induction cells with
  | nil => intro d; rfl
  | cons i is ih =>
      intro d
      rw [List.foldl_cons, ih]
      by_cases h1 : src.getD i 0 = WALL
      · rw [if_pos h1, foldl_setWall_length]
      · rw [if_neg h1]

theorem mem_boxIdxs_iff (w h radius i j : Nat) (hw : 0 < w) :
    j ∈ boxIdxs w h radius i ↔
      (i / w - radius ≤ j / w ∧ j / w ≤ min (h - 1) (i / w + radius) ∧
        i % w - radius ≤ j % w ∧ j % w ≤ min (w - 1) (i % w + radius)) := by
  unfold boxIdxs
  simp only [List.mem_flatMap, List.mem_map, List.mem_range'_1]
  constructor
  · rintro ⟨ny, ⟨hn1, hn2⟩, nx, ⟨⟨hx1, hx2⟩, rfl⟩⟩
    have hxw : nx < w := by omega
    have hdiv : (ny * w + nx) / w = ny := by
      rw [Nat.mul_comm, Nat.mul_add_div hw, Nat.div_eq_of_lt hxw, Nat.add_zero]
    have hmod : (ny * w + nx) % w = nx := by
      rw [Nat.mul_comm, Nat.mul_add_mod, Nat.mod_eq_of_lt hxw]
    rw [hdiv, hmod]
    omega
  · rintro ⟨h1, h2, h3, h4⟩
    refine ⟨j / w, ?_, j % w, ?_, idx_decomp w j⟩ <;> omega

theorem map_getD_range_self (l : List Nat) :
    (List.range l.length).map (fun j => l.getD j 0) = l := by
  apply List.ext_getElem
  · simp
  · intro n h1 h2
    simp only [List.getElem_map, List.getElem_range]
    exact List.getD_eq_getElem l 0 h2

theorem dilateWalls_eq_pointwise (src : List Nat) (w h radius : Nat) :
    dilateWalls src w h radius = dilateWallsP src w h radius := by
  by_cases hw : 0 < w
  · rw [dilateWalls_eq_foldl_boxes]
    apply List.ext_getElem
    · rw [foldl_boxes_length]
      unfold dilateWallsP
      simp
    · intro n h1 h2
      rw [← List.getD_eq_getElem _ 0 h1, ← List.getD_eq_getElem _ 0 h2,
        foldl_boxes_getD]
      have hn : n < src.length := by
        have h2x := h2
        unfold dilateWallsP at h2x
        simpa using h2x
      have hP : (dilateWallsP src w h radius).getD n 0 =
          if (List.range (h * w)).any (wallCovers src w h radius n) then WALL
          else src.getD n 0 := by
        unfold dilateWallsP
        rw [List.getD_eq_getElem _ 0 (by simpa using hn)]
        simp
      rw [hP]
      refine if_congr ?_ rfl rfl
      rw [List.any_eq_true]
      constructor
      · rintro ⟨i, hi, hiw, hij⟩
        refine ⟨i, hi, ?_⟩
        unfold wallCovers
        rw [mem_boxIdxs_iff _ _ _ _ _ hw] at hij
        simp only [Bool.and_eq_true, decide_eq_true_eq]
        exact ⟨⟨⟨⟨hij.1, hij.2.1⟩, hij.2.2.1⟩, hij.2.2.2⟩, hiw⟩
      · rintro ⟨i, hi, hcov⟩
        unfold wallCovers at hcov
        simp only [Bool.and_eq_true, decide_eq_true_eq] at hcov
        refine ⟨i, hi, hcov.2, ?_⟩
        rw [mem_boxIdxs_iff _ _ _ _ _ hw]
        exact ⟨hcov.1.1.1.1, hcov.1.1.1.2, hcov.1.1.2, hcov.1.2⟩
  · have hw0 : w = 0 := by omega
    subst hw0
    unfold dilateWalls dilateWallsP
    rw [Nat.mul_zero]
    simp only [List.range_zero, List.foldl_nil, List.any_nil, if_false,
      Bool.false_eq_true]
    exact (map_getD_range_self src).symm

/-! ## Raster analyzer: concrete evaluations -/

set_option maxRecDepth 1000000 in
set_option maxHeartbeats 4000000 in
theorem stage_binaryOfN_border : binaryOfN imgBorder = bLit := by decide

set_option maxRecDepth 1000000 in
set_option maxHeartbeats 4000000 in
theorem stage_binaryOfN_gray : binaryOfN imgGrayBorder = bLit := by decide

set_option maxRecDepth 1000000 in
set_option maxHeartbeats 4000000 in
theorem stage_binaryOfN_grayInv :
    binaryOfN (invertImage imgGrayBorder) = oLit := by decide

set_option maxRecDepth 1000000 in
set_option maxHeartbeats 4000000 in
theorem stage_dilate_bLit : dilateWalls bLit 15 16 6 = dLit := by
  rw [dilateWalls_eq_pointwise]
  decide

set_option maxRecDepth 1000000 in
set_option maxHeartbeats 4000000 in
theorem stage_dilate_oLit : dilateWalls oLit 15 16 6 = oLit := by
  rw [dilateWalls_eq_pointwise]
  decide

set_option maxRecDepth 1000000 in
set_option maxHeartbeats 4000000 in
theorem stage_seed_dLit : seedBorder dLit 15 16 = (dLit, []) := by decide

set_option maxRecDepth 1000000 in
set_option maxHeartbeats 4000000 in
theorem stage_scan_dLit : scanRoomsN dLit 15 16 = [(7, 7, 7, 8)] := by decide

set_option maxRecDepth 1000000 in
set_option maxHeartbeats 4000000 in
theorem stage_flood_oLit :
    extBFS 15 16 (15 * 16 + (seedBorder oLit 15 16).2.length)
      (seedBorder oLit 15 16).1 (seedBorder oLit 15 16).2 = eLit := by decide

set_option maxRecDepth 1000000 in
set_option maxHeartbeats 4000000 in
theorem stage_scan_eLit : scanRoomsN eLit 15 16 = [] := by decide

theorem detectBoxesN_def (img : Image) :
    detectBoxesN img =
      scanRoomsN
        (extBFS img.width img.height
          (img.width * img.height +
            (seedBorder (dilateWalls (binaryOfN img) img.width img.height 6)
              img.width img.height).2.length)
          (seedBorder (dilateWalls (binaryOfN img) img.width img.height 6)
            img.width img.height).1
          (seedBorder (dilateWalls (binaryOfN img) img.width img.height 6)
            img.width img.height).2)
        img.width img.height := rfl

theorem detectBoxesN_border : detectBoxesN imgBorder = [(7, 7, 7, 8)] := by
  rw [detectBoxesN_def]
  rw [show imgBorder.width = 15 from rfl, show imgBorder.height = 16 from rfl]
  rw [stage_binaryOfN_border, stage_dilate_bLit, stage_seed_dLit]
  rw [show ((dLit, ([] : List Nat)).1) = dLit from rfl,
    show ((dLit, ([] : List Nat)).2) = ([] : List Nat) from rfl,
    show (([] : List Nat)).length = 0 from rfl]
  rw [show extBFS 15 16 (15 * 16 + 0) dLit [] = dLit from rfl]
  exact stage_scan_dLit

theorem detectBoxesN_gray : detectBoxesN imgGrayBorder = [(7, 7, 7, 8)] := by
  rw [detectBoxesN_def]
  rw [show imgGrayBorder.width = 15 from rfl, show imgGrayBorder.height = 16 from rfl]
  rw [stage_binaryOfN_gray, stage_dilate_bLit, stage_seed_dLit]
  rw [show ((dLit, ([] : List Nat)).1) = dLit from rfl,
    show ((dLit, ([] : List Nat)).2) = ([] : List Nat) from rfl,
    show (([] : List Nat)).length = 0 from rfl]
  rw [show extBFS 15 16 (15 * 16 + 0) dLit [] = dLit from rfl]
  exact stage_scan_dLit

theorem detectBoxesN_grayInv : detectBoxesN (invertImage imgGrayBorder) = [] := by
  rw [detectBoxesN_def]
  rw [show (invertImage imgGrayBorder).width = 15 from rfl,
    show (invertImage imgGrayBorder).height = 16 from rfl]
  rw [stage_binaryOfN_grayInv, stage_dilate_oLit, stage_flood_oLit]
  exact stage_scan_eLit

theorem detectBoxes_def (img : Image) :
    detectBoxes img =
      scanRooms
        (extBFS img.width img.height
          (img.width * img.height +
            (seedBorder (dilateWalls (binaryOf img) img.width img.height 6)
              img.width img.height).2.length)
          (seedBorder (dilateWalls (binaryOf img) img.width img.height 6)
            img.width img.height).1
          (seedBorder (dilateWalls (binaryOf img) img.width img.height 6)
            img.width img.height).2)
        img.width img.height := rfl

theorem analyzeFloorPlan_def (img : Image) (cw ch : ℝ) :
    analyzeFloorPlan img cw ch =
      (detectBoxes img).enum.map fun ib =>
        ⟨"", "部屋" ++ toString (ib.1 + 1),
          (ib.2.1 : ℝ) * (cw / (img.width : ℝ)),
          (ib.2.2.1 : ℝ) * (ch / (img.height : ℝ)),
          ((ib.2.2.2.1 : ℝ) - (ib.2.1 : ℝ)) * (cw / (img.width : ℝ)),
          ((ib.2.2.2.2 : ℝ) - (ib.2.2.1 : ℝ)) * (ch / (img.height : ℝ)),
          roomColors.getD (ib.1 % roomColors.length) ""⟩ := rfl

/-- Counterexample to C4 as stated: on the 15×16 `imgBorder` image (with
positive 100×100 target canvas) the analyzer returns exactly one room, and
its `width` is `0` — the detected component spans a single pixel column
(`minX = maxX = 7`) and the source computes `width = (maxX - minX) *
scaleX`. -/
theorem analyzeFloorPlan_width_zero :
    (analyzeFloorPlan imgBorder 100 100).map Room.width = [0] := by
  rw [analyzeFloorPlan_def,
    show detectBoxes imgBorder = [(7, 7, 7, 8)] from by
      rw [detectBoxes_eq]; exact detectBoxesN_border]
  simp only [List.enum, List.enumFrom, List.map_cons, List.map_nil]
  norm_num

theorem regionBFS_bbox (labeled : List Nat) (w h : Nat) :
    ∀ (fuel : Nat) (q : List Nat) (acc : RegionAcc),
      acc.minX ≤ acc.maxX → acc.minY ≤ acc.maxY →
      ((regionBFS labeled w h fuel q acc).minX ≤
          (regionBFS labeled w h fuel q acc).maxX ∧
        (regionBFS labeled w h fuel q acc).minY ≤
          (regionBFS labeled w h fuel q acc).maxY) := by
  intro fuel
  induction fuel with
  | zero => intro q acc h1 h2; exact ⟨h1, h2⟩
  | succ fuel ih =>
      intro q acc h1 h2
      cases q with
      | nil => exact ⟨h1, h2⟩
      | cons c rest =>
          refine ih _ _ ?_ ?_ <;> · dsimp only; omega

theorem foldl_preserve {α β : Type} (P : β → Prop) (f : β → α → β)
    (hf : ∀ s a, P s → P (f s a)) :
    ∀ (l : List α) (init : β), P init → P (l.foldl f init) := by
  intro l
  induction l with
  | nil => intro init hi; exact hi
  | cons a as ih => intro init hi; rw [List.foldl_cons]; exact ih _ (hf _ _ hi)

theorem scanRooms_boxes (labeled : List Nat) (w h : Nat) :
    ∀ b ∈ scanRooms labeled w h, b.1 ≤ b.2.2.1 ∧ b.2.1 ≤ b.2.2.2 := by
  unfold scanRooms
  refine foldl_preserve
    (fun (st : List Nat × List (Nat × Nat × Nat × Nat)) =>
      ∀ b ∈ st.2, b.1 ≤ b.2.2.1 ∧ b.2.1 ≤ b.2.2.2)
    _ ?_ _ _ (by intro b hb; simp at hb)
  intro st startY hst
  refine foldl_preserve
    (fun (st : List Nat × List (Nat × Nat × Nat × Nat)) =>
      ∀ b ∈ st.2, b.1 ≤ b.2.2.1 ∧ b.2.1 ≤ b.2.2.2)
    _ ?_ _ _ hst
  intro st2 startX hst2
  dsimp only
  split_ifs with hc1 hc2
  · exact hst2
  · intro b hb
    rw [List.mem_append] at hb
    rcases hb with hb | hb
    · exact hst2 b hb
    · rw [List.mem_singleton] at hb
      subst hb
      obtain ⟨hx, hy⟩ := regionBFS_bbox labeled w h (w * h + 1) [startY * w + startX]
        ⟨st2.1.set (startY * w + startX) 1, startX, startX, startY, startY, 0⟩
        le_rfl le_rfl
      exact ⟨hx, hy⟩
  · exact hst2

/-- C4 (amended): every room rectangle returned by `analyzeFloorPlan` for
positive canvas dimensions satisfies `0 ≤ width` and `0 ≤ height` (the
strict `width > 0, height > 0` fails: a component spanning a single pixel
column or row yields `maxX - minX = 0` resp. `maxY - minY = 0`). -/
theorem analyzeFloorPlan_size_nonneg (img : Image) (cw ch : ℝ)
    (hcw : 0 < cw) (hch : 0 < ch) :
    ∀ r ∈ analyzeFloorPlan img cw ch, 0 ≤ r.width ∧ 0 ≤ r.height := by
  intro r hr
  rw [analyzeFloorPlan_def, List.mem_map] at hr
  obtain ⟨ib, hib, rfl⟩ := hr
  have hb : ib.2 ∈ detectBoxes img :=
    List.getElem?_mem (List.mem_enum_iff_getElem?.mp hib)
  rw [detectBoxes_def] at hb
  obtain ⟨hx, hy⟩ := scanRooms_boxes _ _ _ ib.2 hb
  constructor
  · dsimp only
    apply mul_nonneg
    · rw [sub_nonneg]
      exact_mod_cast hx
    · exact div_nonneg hcw.le (Nat.cast_nonneg _)
  · dsimp only
    apply mul_nonneg
    · rw [sub_nonneg]
      exact_mod_cast hy
    · exact div_nonneg hch.le (Nat.cast_nonneg _)

/-- Witness for the amended C4 at a concrete input: the one room detected
on `imgBorder` with a 100×100 canvas has nonnegative width and height. -/
theorem analyzeFloorPlan_size_nonneg_witness :
    0 ≤ ((analyzeFloorPlan imgBorder 100 100).getD 0 demoRoom).width ∧
      0 ≤ ((analyzeFloorPlan imgBorder 100 100).getD 0 demoRoom).height := by
  have hlen1 : (analyzeFloorPlan imgBorder 100 100).length = 1 := by
    rw [analyzeFloorPlan_def, List.length_map,
      show detectBoxes imgBorder = [(7, 7, 7, 8)] from by
        rw [detectBoxes_eq]; exact detectBoxesN_border]
    rfl
  have h01 : 0 < (analyzeFloorPlan imgBorder 100 100).length := by
    rw [hlen1]; omega
  have hmem : (analyzeFloorPlan imgBorder 100 100).getD 0 demoRoom ∈
      analyzeFloorPlan imgBorder 100 100 := by
    rw [List.getD_eq_getElem _ _ h01]
    exact List.getElem_mem _
  exact analyzeFloorPlan_size_nonneg imgBorder 100 100 (by norm_num) (by norm_num)
    _ hmem

/-- Counterexample to C5 as stated: on the 15×16 `imgGrayBorder` image the
analyzer finds one room, but on its exact color inversion it finds none.
The mid-gray border (luma 100) and its inversion (luma 155) both binarize
to wall, so the inverted image is all-wall, the 30% auto-detect flips it to
all-open, and the border flood fill removes everything — the 30% step does
not compensate the inversion for images with mid-gray pixels. -/
theorem analyzeFloorPlan_polarity_counterexample :
    (analyzeFloorPlan imgGrayBorder 100 100).length = 1 ∧
      (analyzeFloorPlan (invertImage imgGrayBorder) 100 100).length = 0 := by
  constructor
  · rw [analyzeFloorPlan_def, List.length_map,
      show detectBoxes imgGrayBorder = [(7, 7, 7, 8)] from by
        rw [detectBoxes_eq]; exact detectBoxesN_gray]
    rfl
  · rw [analyzeFloorPlan_def, List.length_map,
      show detectBoxes (invertImage imgGrayBorder) = [] from by
        rw [detectBoxes_eq]; exact detectBoxesN_grayInv]
    rfl

theorem luma_invert (p : Nat × Nat × Nat) (h1 : p.1 ≤ 255) (h2 : p.2.1 ≤ 255)
    (h3 : p.2.2 ≤ 255) :
    luma (255 - p.1, 255 - p.2.1, 255 - p.2.2) = 255 - luma p := by
  unfold luma
  push_cast [Nat.cast_sub h1, Nat.cast_sub h2, Nat.cast_sub h3]
  ring

theorem binarize_invert (img : Image)
    (himg : ∀ x < img.width, ∀ y < img.height,
      (img.pixel x y).1 ≤ 255 ∧ (img.pixel x y).2.1 ≤ 255 ∧
        (img.pixel x y).2.2 ≤ 255)
    (hluma : ∀ x < img.width, ∀ y < img.height,
      200 ≤ luma (img.pixel x y) ∨ luma (img.pixel x y) ≤ 55) :
    binarize (invertImage img) = flipGrid (binarize img) := by
  unfold binarize invertImage flipGrid
  rw [List.map_map]
  apply List.map_eq_map_iff.mpr
  intro i hi
  rw [List.mem_range] at hi
  have hw : 0 < img.width := by
    rcases Nat.eq_zero_or_pos img.width with h0 | h0
    · rw [h0] at hi; simp at hi
    · exact h0
  have hx : i % img.width < img.width := Nat.mod_lt _ hw
  have hy : i / img.width < img.height := by
    rw [Nat.div_lt_iff_lt_mul hw]
    rw [Nat.mul_comm] at hi
    exact hi
  obtain ⟨hc1, hc2, hc3⟩ := himg _ hx _ hy
  have hl := hluma _ hx _ hy
  dsimp only [Function.comp]
  rw [luma_invert _ hc1 hc2 hc3]
  by_cases hc : 200 ≤ luma (img.pixel (i % img.width) (i / img.width))
  · rw [if_pos hc, if_neg (by intro habs; linarith)]
    rfl
  · have h55 : luma (img.pixel (i % img.width) (i / img.width)) ≤ 55 := by
      rcases hl with h | h
      · exact absurd h hc
      · exact h
    rw [if_neg hc, if_pos (by linarith)]
    rfl

theorem foldl_add_acc :
    ∀ (l : List Nat) (s : Nat), l.foldl (· + ·) s = s + l.foldl (· + ·) 0 := by
  intro l
  induction l with
  | nil => intro s; simp
  | cons a as ih =>
      intro s
      rw [List.foldl_cons, List.foldl_cons, ih (s + a), ih (0 + a)]
      omega

theorem openCount_cons (a : Nat) (l : List Nat) :
    openCount (a :: l) = a + openCount l := by
  unfold openCount
  rw [List.foldl_cons, foldl_add_acc]
  omega

theorem openCount_flip :
    ∀ l : List Nat, (∀ v ∈ l, v = OPEN ∨ v = WALL) →
      openCount (flipGrid l) + openCount l = l.length := by
  intro l
  induction l with
  | nil => intro; rfl
  | cons v vs ih =>
      intro he
      have hv := he v (List.mem_cons_self _ _)
      have hrest := ih fun u hu => he u (List.mem_cons_of_mem _ hu)
      show openCount ((if v = OPEN then WALL else OPEN) :: flipGrid vs) + _ = _
      rw [openCount_cons, openCount_cons]
      rcases hv with rfl | rfl
      · rw [if_pos rfl]
        unfold OPEN WALL at *
        simp only [List.length_cons]
        omega
      · rw [if_neg (by unfold OPEN WALL; omega)]
        unfold OPEN WALL at *
        simp only [List.length_cons]
        omega

theorem binarize_entries (img : Image) :
    ∀ v ∈ binarize img, v = OPEN ∨ v = WALL := by
  unfold binarize
  intro v hv
  rw [List.mem_map] at hv
  obtain ⟨i, -, rfl⟩ := hv
  split_ifs
  · exact Or.inl rfl
  · exact Or.inr rfl

theorem binarize_length (img : Image) :
    (binarize img).length = img.width * img.height := by
  unfold binarize
  simp

theorem flipGrid_flipGrid :
    ∀ l : List Nat, (∀ v ∈ l, v = OPEN ∨ v = WALL) → flipGrid (flipGrid l) = l := by
  intro l hl
  unfold flipGrid
  rw [List.map_map]
  have : ∀ v ∈ l, ((fun v => if v = OPEN then WALL else OPEN) ∘
      fun v => if v = OPEN then WALL else OPEN) v = id v := by
    intro v hv
    rcases hl v hv with rfl | rfl <;> rfl
  rw [List.map_eq_map_iff.mpr this, List.map_id]

theorem polarity_iff2 (oc w h : Nat) :
    ((oc : ℚ) < (w : ℚ) * (h : ℚ) * 0.3) ↔ 10 * oc < 3 * (w * h) := by
  rw [show (0.3 : ℚ) = 3 / 10 from by norm_num]
  constructor
  · intro hlt
    have h2 : (10 * oc : ℚ) < 3 * (w * h) := by push_cast; linarith
    exact_mod_cast h2
  · intro hlt
    have h2 : (10 * oc : ℚ) < 3 * (w * h) := by exact_mod_cast hlt
    push_cast at h2
    linarith

theorem binaryOf_invert (img : Image)
    (himg : ∀ x < img.width, ∀ y < img.height,
      (img.pixel x y).1 ≤ 255 ∧ (img.pixel x y).2.1 ≤ 255 ∧
        (img.pixel x y).2.2 ≤ 255)
    (hluma : ∀ x < img.width, ∀ y < img.height,
      200 ≤ luma (img.pixel x y) ∨ luma (img.pixel x y) ≤ 55)
    (hfrac : 10 * openCount (binarize img) < 3 * (img.width * img.height) ∨
      7 * (img.width * img.height) < 10 * openCount (binarize img)) :
    binaryOf (invertImage img) = binaryOf img := by
  have hinv := binarize_invert img himg hluma
  have hsum : openCount (flipGrid (binarize img)) + openCount (binarize img) =
      img.width * img.height := by
    rw [openCount_flip _ (binarize_entries img), binarize_length]
  unfold binaryOf
  rw [show (invertImage img).width = img.width from rfl,
    show (invertImage img).height = img.height from rfl, hinv]
  rcases hfrac with hf | hf
  · have hA : ((openCount (binarize img) : ℚ) <
        (img.width : ℚ) * (img.height : ℚ) * 0.3) :=
      (polarity_iff2 _ _ _).mpr hf
    have hB : ¬ ((openCount (flipGrid (binarize img)) : ℚ) <
        (img.width : ℚ) * (img.height : ℚ) * 0.3) := by
      rw [polarity_iff2]; omega
    rw [if_neg hB, if_pos hA]
  · have hA : ¬ ((openCount (binarize img) : ℚ) <
        (img.width : ℚ) * (img.height : ℚ) * 0.3) := by
      rw [polarity_iff2]; omega
    have hB : ((openCount (flipGrid (binarize img)) : ℚ) <
        (img.width : ℚ) * (img.height : ℚ) * 0.3) := by
      rw [polarity_iff2]; omega
    rw [if_pos hB, if_neg hA]
    exact flipGrid_flipGrid _ (binarize_entries img)

/-- C5 (amended): analyzing an image and its exact color inversion yields
the same rooms, provided (i) every channel is a valid 8-bit value, (ii) no
pixel's luma lies strictly between 55 and 200 (so inversion exactly
complements the binarized grid — mid-gray pixels binarize to wall in both
images), and (iii) the open fraction is below 30% or above 70% (so the
polarity auto-detect triggers for exactly one of the two images). -/
theorem analyzeFloorPlan_polarity_invariance (img : Image) (cw ch : ℝ)
    (himg : ∀ x < img.width, ∀ y < img.height,
      (img.pixel x y).1 ≤ 255 ∧ (img.pixel x y).2.1 ≤ 255 ∧
        (img.pixel x y).2.2 ≤ 255)
    (hluma : ∀ x < img.width, ∀ y < img.height,
      200 ≤ luma (img.pixel x y) ∨ luma (img.pixel x y) ≤ 55)
    (hfrac : 10 * openCount (binarize img) < 3 * (img.width * img.height) ∨
      7 * (img.width * img.height) < 10 * openCount (binarize img)) :
    analyzeFloorPlan (invertImage img) cw ch = analyzeFloorPlan img cw ch := by
  rw [analyzeFloorPlan_def, analyzeFloorPlan_def, detectBoxes_def, detectBoxes_def]
  rw [show (invertImage img).width = img.width from rfl,
    show (invertImage img).height = img.height from rfl,
    binaryOf_invert img himg hluma hfrac]

/-! ## Flood-fill machinery for degenerate-image analysis -/

theorem getD_set_self (l : List Nat) (j v : Nat) (h : j < l.length) :
    (l.set j v).getD j 0 = v := by
  rw [List.getD_eq_getElem?_getD, List.getElem?_set_self h]
  rfl

theorem getD_set_ne (l : List Nat) (i j v : Nat) (h : i ≠ j) :
    (l.set i v).getD j 0 = l.getD j 0 := by
  rw [List.getD_eq_getElem?_getD, List.getElem?_set_ne h,
    ← List.getD_eq_getElem?_getD]

theorem countOpen_set :
    ∀ (l : List Nat) (j : Nat), j < l.length → l.getD j 0 = OPEN →
      countOpen (l.set j EXTERIOR) + 1 = countOpen l := by
  intro l
  induction l with
  | nil => intro j hj; simp at hj
  | cons a t ih =>
      intro j hj hopen
      cases j with
      | zero =>
          have ha : a = OPEN := hopen
          subst ha
          show countOpen (EXTERIOR :: t) + 1 = countOpen (OPEN :: t)
          unfold countOpen
          rw [List.countP_cons, List.countP_cons]
          norm_num [OPEN, EXTERIOR]
      | succ j =>
          have hj2 : j < t.length := by simpa using hj
          have hopen2 : t.getD j 0 = OPEN := hopen
          show countOpen (a :: t.set j EXTERIOR) + 1 = countOpen (a :: t)
          unfold countOpen
          rw [List.countP_cons, List.countP_cons]
          have := ih j hj2 hopen2
          unfold countOpen at this
          omega

theorem nbrIdx_lt_of_some (w h curr : Nat) (dxy : Int × Int) (j : Nat)
    (hj : nbrIdx w h curr dxy = some j) : j < w * h := by
  simp only [nbrIdx] at hj
  split_ifs at hj with hc
  push_neg at hc
  obtain ⟨h1, h2, h3, h4⟩ := hc
  have hj2 := (Option.some.inj hj).symm
  set a : Int := ((curr % w : Nat) : Int) + dxy.1 with ha
  set b : Int := ((curr / w : Nat) : Int) + dxy.2 with hb
  have ha0 : a = ((a.toNat : Nat) : Int) := (Int.toNat_of_nonneg h1).symm
  have hb0 : b = ((b.toNat : Nat) : Int) := (Int.toNat_of_nonneg h3).symm
  have haw : a.toNat < w := by omega
  have hbh : b.toNat < h := by omega
  have hsum : b * (w : Int) + a = ((b.toNat * w + a.toNat : Nat) : Int) := by
    push_cast
    rw [Int.toNat_of_nonneg h1, Int.toNat_of_nonneg h3]
  rw [hj2, hsum, Int.toNat_natCast]
  calc b.toNat * w + a.toNat < b.toNat * w + w := by omega
    _ = (b.toNat + 1) * w := by ring
    _ ≤ h * w := Nat.mul_le_mul_right _ hbh
    _ = w * h := Nat.mul_comm _ _

theorem tryMark_cases (w h curr : Nat) (st : List Nat × List Nat) (dxy : Int × Int) :
    (nbrIdx w h curr dxy = none ∧ tryMark w h curr st dxy = st) ∨
    (∃ j, nbrIdx w h curr dxy = some j ∧
      ((st.1.getD j 0 ≠ OPEN ∧ tryMark w h curr st dxy = st) ∨
        (st.1.getD j 0 = OPEN ∧
          tryMark w h curr st dxy = (st.1.set j EXTERIOR, st.2 ++ [j])))) := by
  unfold tryMark nbrIdx
  dsimp only
  split_ifs with h1 h2
  · exact Or.inl ⟨rfl, rfl⟩
  · exact Or.inr ⟨_, rfl, Or.inr ⟨h2, rfl⟩⟩
  · exact Or.inr ⟨_, rfl, Or.inl ⟨h2, rfl⟩⟩

theorem tryMark_length (w h curr : Nat) (st : List Nat × List Nat) (dxy : Int × Int) :
    (tryMark w h curr st dxy).1.length = st.1.length := by
  rcases tryMark_cases w h curr st dxy with ⟨-, he⟩ | ⟨j, -, ⟨-, he⟩ | ⟨-, he⟩⟩ <;>
    rw [he] <;> simp

theorem tryMark_mono (w h curr : Nat) (st : List Nat × List Nat) (dxy : Int × Int)
    (j : Nat) :
    (tryMark w h curr st dxy).1.getD j 0 = st.1.getD j 0 ∨
      (st.1.getD j 0 = OPEN ∧ (tryMark w h curr st dxy).1.getD j 0 = EXTERIOR) := by
  rcases tryMark_cases w h curr st dxy with ⟨-, he⟩ | ⟨k, -, ⟨-, he⟩ | ⟨hopen, he⟩⟩
  · rw [he]; exact Or.inl rfl
  · rw [he]; exact Or.inl rfl
  · rw [he]
    by_cases hjk : j = k
    · subst hjk
      by_cases hlt : j < st.1.length
      · exact Or.inr ⟨hopen, getD_set_self _ _ _ hlt⟩
      · rw [List.set_eq_of_length_le (by omega)]
        exact Or.inl rfl
    · rw [getD_set_ne _ _ _ _ fun he2 => hjk he2.symm]
      exact Or.inl rfl

theorem tryMark_queue_mono (w h curr : Nat) (st : List Nat × List Nat)
    (dxy : Int × Int) (j : Nat) (hj : j ∈ st.2) :
    j ∈ (tryMark w h curr st dxy).2 := by
  rcases tryMark_cases w h curr st dxy with ⟨-, he⟩ | ⟨k, -, ⟨-, he⟩ | ⟨-, he⟩⟩ <;>
    rw [he]
  · exact hj
  · exact hj
  · exact List.mem_append_left _ hj

theorem tryMark_changed_queued (w h curr : Nat) (st : List Nat × List Nat)
    (dxy : Int × Int) (j : Nat)
    (hch : (tryMark w h curr st dxy).1.getD j 0 ≠ st.1.getD j 0) :
    j ∈ (tryMark w h curr st dxy).2 := by
  rcases tryMark_cases w h curr st dxy with ⟨-, he⟩ | ⟨k, -, ⟨-, he⟩ | ⟨-, he⟩⟩
  · rw [he] at hch; exact absurd rfl hch
  · rw [he] at hch; exact absurd rfl hch
  · rw [he] at hch ⊢
    by_cases hjk : j = k
    · subst hjk
      exact List.mem_append_right _ (List.mem_singleton.mpr rfl)
    · rw [getD_set_ne _ _ _ _ fun he2 => hjk he2.symm] at hch
      exact absurd rfl hch

theorem tryMark_count (w h curr : Nat) (st : List Nat × List Nat)
    (dxy : Int × Int) (hlen : st.1.length = w * h) :
    countOpen (tryMark w h curr st dxy).1 + (tryMark w h curr st dxy).2.length =
      countOpen st.1 + st.2.length := by
  rcases tryMark_cases w h curr st dxy with ⟨-, he⟩ | ⟨k, hk, ⟨-, he⟩ | ⟨hopen, he⟩⟩
  · rw [he]
  · rw [he]
  · rw [he]
    have hklt : k < st.1.length := by
      rw [hlen]; exact nbrIdx_lt_of_some w h curr dxy k hk
    have := countOpen_set st.1 k hklt hopen
    simp only [List.length_append, List.length_singleton]
    omega

theorem tryMark_target (w h curr : Nat) (st : List Nat × List Nat)
    (dxy : Int × Int) (hlen : st.1.length = w * h) (j : Nat)
    (hj : nbrIdx w h curr dxy = some j) :
    (tryMark w h curr st dxy).1.getD j 0 ≠ OPEN := by
  rcases tryMark_cases w h curr st dxy with ⟨hn, -⟩ | ⟨k, hk, ⟨hne, he⟩ | ⟨-, he⟩⟩
  · rw [hn] at hj; exact absurd hj (by simp)
  · have hjk : j = k := Option.some.inj (hj.symm.trans hk)
    subst hjk
    rw [he]
    exact hne
  · have hjk : j = k := Option.some.inj (hj.symm.trans hk)
    subst hjk
    rw [he]
    have hklt : j < st.1.length := by
      rw [hlen]; exact nbrIdx_lt_of_some w h curr dxy j hj
    rw [getD_set_self _ _ _ hklt]
    decide

theorem foldTM_length (w h curr : Nat) :
    ∀ (offs : List (Int × Int)) (st : List Nat × List Nat),
      ((offs.foldl (tryMark w h curr) st).1.length = st.1.length) := by
  intro offs
  induction offs with
  | nil => intro st; rfl
  | cons o os ih =>
      intro st
      rw [List.foldl_cons, ih, tryMark_length]

theorem foldTM_mono (w h curr : Nat) :
    ∀ (offs : List (Int × Int)) (st : List Nat × List Nat) (j : Nat),
      (offs.foldl (tryMark w h curr) st).1.getD j 0 = st.1.getD j 0 ∨
        (st.1.getD j 0 = OPEN ∧
          (offs.foldl (tryMark w h curr) st).1.getD j 0 = EXTERIOR) := by
  intro offs
  induction offs with
  | nil => intro st j; exact Or.inl rfl
  | cons o os ih =>
      intro st j
      rw [List.foldl_cons]
      rcases tryMark_mono w h curr st o j with heq | ⟨hopen, hext⟩
      · rcases ih (tryMark w h curr st o) j with h2 | ⟨h2o, h2e⟩
        · exact Or.inl (h2.trans heq)
        · exact Or.inr ⟨heq ▸ h2o, h2e⟩
      · rcases ih (tryMark w h curr st o) j with h2 | ⟨h2o, h2e⟩
        · exact Or.inr ⟨hopen, h2.trans hext⟩
        · rw [hext] at h2o
          exact absurd h2o (by decide)

theorem foldTM_nonopen_pres (w h curr : Nat)
    (offs : List (Int × Int)) (st : List Nat × List Nat) (j : Nat)
    (hne : st.1.getD j 0 ≠ OPEN) :
    (offs.foldl (tryMark w h curr) st).1.getD j 0 ≠ OPEN := by
  rcases foldTM_mono w h curr offs st j with heq | ⟨hopen, hext⟩
  · rw [heq]; exact hne
  · exact absurd hopen hne

theorem foldTM_queue_mono (w h curr : Nat) :
    ∀ (offs : List (Int × Int)) (st : List Nat × List Nat) (j : Nat),
      j ∈ st.2 → j ∈ (offs.foldl (tryMark w h curr) st).2 := by
  intro offs
  induction offs with
  | nil => intro st j hj; exact hj
  | cons o os ih =>
      intro st j hj
      rw [List.foldl_cons]
      exact ih _ _ (tryMark_queue_mono w h curr st o j hj)

theorem foldTM_changed_queued (w h curr : Nat) :
    ∀ (offs : List (Int × Int)) (st : List Nat × List Nat) (j : Nat),
      (offs.foldl (tryMark w h curr) st).1.getD j 0 ≠ st.1.getD j 0 →
      j ∈ (offs.foldl (tryMark w h curr) st).2 := by
  intro offs
  induction offs with
  | nil => intro st j hch; exact absurd rfl hch
  | cons o os ih =>
      intro st j hch
      rw [List.foldl_cons] at hch ⊢
      by_cases hstep : (tryMark w h curr st o).1.getD j 0 = st.1.getD j 0
      · exact ih _ _ (fun he => hch (he.trans hstep))
      · exact foldTM_queue_mono w h curr os _ j
          (tryMark_changed_queued w h curr st o j hstep)

theorem foldTM_count (w h curr : Nat) :
    ∀ (offs : List (Int × Int)) (st : List Nat × List Nat),
      st.1.length = w * h →
      countOpen (offs.foldl (tryMark w h curr) st).1 +
          (offs.foldl (tryMark w h curr) st).2.length =
        countOpen st.1 + st.2.length := by
  intro offs
  induction offs with
  | nil => intro st _; rfl
  | cons o os ih =>
      intro st hlen
      rw [List.foldl_cons, ih _ (by rw [tryMark_length]; exact hlen),
        tryMark_count w h curr st o hlen]

theorem foldTM_target (w h curr : Nat) :
    ∀ (offs : List (Int × Int)) (st : List Nat × List Nat),
      st.1.length = w * h →
      ∀ dxy ∈ offs, ∀ j, nbrIdx w h curr dxy = some j →
        (offs.foldl (tryMark w h curr) st).1.getD j 0 ≠ OPEN := by
  intro offs
  induction offs with
  | nil => intro st _ dxy hdxy; simp at hdxy
  | cons o os ih =>
      intro st hlen dxy hdxy j hj
      rw [List.foldl_cons]
      rcases List.mem_cons.mp hdxy with rfl | hmem
      · exact foldTM_nonopen_pres w h curr os _ j
          (tryMark_target w h curr st dxy hlen j hj)
      · exact ih _ (by rw [tryMark_length]; exact hlen) dxy hmem j hj

theorem countOpen_ne_open (l : List Nat) (hc : countOpen l = 0) (j : Nat) :
    l.getD j 0 ≠ OPEN := by
  by_cases hj : j < l.length
  · rw [List.getD_eq_getElem l 0 hj]
    intro he
    have h2 := List.countP_eq_zero.mp hc (l[j]) (List.getElem_mem hj)
    simp [he] at h2
  · rw [List.getD_eq_default]
    · decide
    · omega

theorem extBFS_props (w h : Nat) :
    ∀ (fuel : Nat) (lab q : List Nat),
      lab.length = w * h →
      countOpen lab + q.length ≤ fuel →
      (∀ i, lab.getD i 0 = EXTERIOR → i ∉ q →
        ∀ dxy ∈ nbrOffsets, ∀ j, nbrIdx w h i dxy = some j → lab.getD j 0 ≠ OPEN) →
      (∀ j, (extBFS w h fuel lab q).getD j 0 = lab.getD j 0 ∨
          (extBFS w h fuel lab q).getD j 0 = EXTERIOR) ∧
        (∀ i, (extBFS w h fuel lab q).getD i 0 = EXTERIOR →
          ∀ dxy ∈ nbrOffsets, ∀ j, nbrIdx w h i dxy = some j →
            (extBFS w h fuel lab q).getD j 0 ≠ OPEN) := by
  intro fuel
  induction fuel with
  | zero =>
      intro lab q hlen hm hinv
      have hc : countOpen lab = 0 := by omega
      exact ⟨fun j => Or.inl rfl,
        fun i hi dxy hdxy j hj => countOpen_ne_open lab hc j⟩
  | succ fuel ih =>
      intro lab q hlen hm hinv
      cases q with
      | nil =>
          exact ⟨fun j => Or.inl rfl,
            fun i hi dxy hdxy j hj => hinv i hi (List.not_mem_nil i) dxy hdxy j hj⟩
      | cons curr rest =>
          have hstep : extBFS w h (fuel + 1) lab (curr :: rest) =
              extBFS w h fuel (extStep w h lab rest curr).1
                (extStep w h lab rest curr).2 := rfl
          set st := extStep w h lab rest curr with hst
          have hfold : st = nbrOffsets.foldl (tryMark w h curr) (lab, rest) := rfl
          have hlen' : st.1.length = w * h := by
            rw [hfold, foldTM_length]; exact hlen
          have hcnt : countOpen st.1 + st.2.length = countOpen lab + rest.length := by
            rw [hfold]; exact foldTM_count w h curr nbrOffsets (lab, rest) hlen
          have hm' : countOpen st.1 + st.2.length ≤ fuel := by
            simp only [List.length_cons] at hm; omega
          have hqmono : ∀ j, j ∈ rest → j ∈ st.2 := by
            intro j hj
            rw [hfold]
            exact foldTM_queue_mono w h curr nbrOffsets (lab, rest) j hj
          have hmono : ∀ j, st.1.getD j 0 = lab.getD j 0 ∨
              (lab.getD j 0 = OPEN ∧ st.1.getD j 0 = EXTERIOR) := by
            intro j
            rw [hfold]
            exact foldTM_mono w h curr nbrOffsets (lab, rest) j
          have hinv' : ∀ i, st.1.getD i 0 = EXTERIOR → i ∉ st.2 →
              ∀ dxy ∈ nbrOffsets, ∀ j, nbrIdx w h i dxy = some j →
                st.1.getD j 0 ≠ OPEN := by
            intro i hi hiq dxy hdxy j hj
            by_cases hic : i = curr
            · subst hic
              rw [hfold]
              exact foldTM_target w h i nbrOffsets (lab, rest) hlen dxy hdxy j hj
            · have hlab_i : lab.getD i 0 = EXTERIOR := by
                rcases hmono i with heq | ⟨hopen, _⟩
                · rw [← heq]; exact hi
                · exfalso
                  apply hiq
                  rw [hfold]
                  apply foldTM_changed_queued w h curr nbrOffsets (lab, rest) i
                  rw [← hfold]
                  show st.1.getD i 0 ≠ lab.getD i 0
                  rw [hi, hopen]
                  decide
              have hirest : i ∉ rest := fun hr => hiq (hqmono i hr)
              have hlabj : lab.getD j 0 ≠ OPEN := by
                apply hinv i hlab_i _ dxy hdxy j hj
                intro hmem
                rcases List.mem_cons.mp hmem with he | hr
                · exact hic he
                · exact hirest hr
              rw [hfold]
              exact foldTM_nonopen_pres w h curr nbrOffsets (lab, rest) j hlabj
          obtain ⟨ihA, ihB⟩ := ih st.1 st.2 hlen' hm' hinv'
          rw [hstep]
          constructor
          · intro j
            rcases ihA j with hA | hA
            · rcases hmono j with heq | ⟨_, hext⟩
              · exact Or.inl (hA.trans heq)
              · exact Or.inr (hA.trans hext)
            · exact Or.inr hA
          · exact ihB

theorem enqueueEdge_cases (w : Nat) (st : List Nat × List Nat) (x y : Nat) :
    (st.1.getD (y * w + x) 0 ≠ OPEN ∧ enqueueEdge w st x y = st) ∨
      (st.1.getD (y * w + x) 0 = OPEN ∧
        enqueueEdge w st x y = (st.1.set (y * w + x) EXTERIOR, st.2 ++ [y * w + x])) := by
  unfold enqueueEdge
  dsimp only
  split_ifs with hc
  · exact Or.inr ⟨hc, rfl⟩
  · exact Or.inl ⟨hc, rfl⟩

theorem lt_length_of_getD_open (l : List Nat) (k : Nat) (hk : l.getD k 0 = OPEN) :
    k < l.length := by
  by_contra hge
  rw [List.getD_eq_default l 0 (by omega)] at hk
  exact absurd hk (by decide)

theorem enqueueEdge_length (w : Nat) (st : List Nat × List Nat) (x y : Nat) :
    (enqueueEdge w st x y).1.length = st.1.length := by
  rcases enqueueEdge_cases w st x y with ⟨-, he⟩ | ⟨-, he⟩ <;> rw [he] <;> simp

theorem enqueueEdge_mono (w : Nat) (st : List Nat × List Nat) (x y i : Nat) :
    (enqueueEdge w st x y).1.getD i 0 = st.1.getD i 0 ∨
      ((enqueueEdge w st x y).1.getD i 0 = EXTERIOR ∧ i ∈ (enqueueEdge w st x y).2) := by
  rcases enqueueEdge_cases w st x y with ⟨-, he⟩ | ⟨hopen, he⟩
  · rw [he]; exact Or.inl rfl
  · rw [he]
    by_cases hik : i = y * w + x
    · subst hik
      refine Or.inr ⟨getD_set_self _ _ _ (lt_length_of_getD_open _ _ hopen), ?_⟩
      exact List.mem_append_right _ (List.mem_singleton.mpr rfl)
    · rw [getD_set_ne _ _ _ _ fun he2 => hik he2.symm]
      exact Or.inl rfl

theorem enqueueEdge_nonopen (w : Nat) (st : List Nat × List Nat) (x y i : Nat)
    (hne : st.1.getD i 0 ≠ OPEN) : (enqueueEdge w st x y).1.getD i 0 ≠ OPEN := by
  rcases enqueueEdge_mono w st x y i with heq | ⟨hext, -⟩
  · rw [heq]; exact hne
  · rw [hext]; decide

theorem enqueueEdge_target (w : Nat) (st : List Nat × List Nat) (x y : Nat) :
    (enqueueEdge w st x y).1.getD (y * w + x) 0 ≠ OPEN := by
  rcases enqueueEdge_cases w st x y with ⟨hne, he⟩ | ⟨hopen, he⟩
  · rw [he]; exact hne
  · rw [he]
    rw [getD_set_self _ _ _ (lt_length_of_getD_open _ _ hopen)]
    decide

theorem enqueueEdge_queue_mono (w : Nat) (st : List Nat × List Nat) (x y j : Nat)
    (hj : j ∈ st.2) : j ∈ (enqueueEdge w st x y).2 := by
  rcases enqueueEdge_cases w st x y with ⟨-, he⟩ | ⟨-, he⟩ <;> rw [he]
  · exact hj
  · exact List.mem_append_left _ hj

theorem foldl_id_of {α β : Type} (f : α → β → α) :
    ∀ (l : List β) (s : α), (∀ b ∈ l, f s b = s) → l.foldl f s = s := by
  intro l
  induction l with
  | nil => intro s _; rfl
  | cons c cs ih =>
      intro s hs
      rw [List.foldl_cons, hs c (List.mem_cons_self c cs)]
      exact ih s fun b hb => hs b (List.mem_cons_of_mem _ hb)

theorem foldl_point {α β : Type} (P : α → Prop) (f : α → β → α) (b0 : β)
    (pres : ∀ a b, P a → P (f a b)) (est : ∀ a, P (f a b0)) :
    ∀ (l : List β) (s : α), b0 ∈ l → P (l.foldl f s) := by
  intro l
  induction l with
  | nil => intro s hmem; simp at hmem
  | cons c cs ih =>
      intro s hmem
      rw [List.foldl_cons]
      rcases List.mem_cons.mp hmem with rfl | hmem2
      · exact foldl_preserve P f (fun a b hp => pres a b hp) cs (f s b0) (est s)
      · exact ih _ hmem2

theorem seedBorder_length (g : List Nat) (w h : Nat) :
    (seedBorder g w h).1.length = g.length := by
  unfold seedBorder
  dsimp only
  have h1 := foldl_preserve (fun st : List Nat × List Nat => st.1.length = g.length)
    (fun st x => enqueueEdge w (enqueueEdge w st x 0) x (h - 1))
    (fun s a hp => by
      dsimp only; rw [enqueueEdge_length, enqueueEdge_length]; exact hp)
    (List.range w) (g, []) rfl
  exact foldl_preserve (fun st : List Nat × List Nat => st.1.length = g.length)
    (fun st y => enqueueEdge w (enqueueEdge w st 0 y) (w - 1) y)
    (fun s a hp => by
      dsimp only; rw [enqueueEdge_length, enqueueEdge_length]; exact hp)
    (List.range' 1 (h - 1 - 1)) _ h1

theorem seedBorder_src (g : List Nat) (w h i : Nat) :
    (seedBorder g w h).1.getD i 0 = g.getD i 0 ∨
      ((seedBorder g w h).1.getD i 0 = EXTERIOR ∧ i ∈ (seedBorder g w h).2) := by
  unfold seedBorder
  dsimp only
  have hstep : ∀ (s : List Nat × List Nat) (x y : Nat),
      (s.1.getD i 0 = g.getD i 0 ∨ (s.1.getD i 0 = EXTERIOR ∧ i ∈ s.2)) →
      ((enqueueEdge w s x y).1.getD i 0 = g.getD i 0 ∨
        ((enqueueEdge w s x y).1.getD i 0 = EXTERIOR ∧ i ∈ (enqueueEdge w s x y).2)) := by
    intro s x y hp
    rcases enqueueEdge_mono w s x y i with heq | ⟨hext, hmem⟩
    · rcases hp with h1 | ⟨h1, h2⟩
      · exact Or.inl (heq.trans h1)
      · exact Or.inr ⟨heq.trans h1, enqueueEdge_queue_mono w s x y i h2⟩
    · exact Or.inr ⟨hext, hmem⟩
  have h1 := foldl_preserve
    (fun st : List Nat × List Nat =>
      st.1.getD i 0 = g.getD i 0 ∨ (st.1.getD i 0 = EXTERIOR ∧ i ∈ st.2))
    (fun st x => enqueueEdge w (enqueueEdge w st x 0) x (h - 1))
    (fun s a hp => hstep _ _ _ (hstep _ _ _ hp))
    (List.range w) (g, []) (Or.inl rfl)
  exact foldl_preserve
    (fun st : List Nat × List Nat =>
      st.1.getD i 0 = g.getD i 0 ∨ (st.1.getD i 0 = EXTERIOR ∧ i ∈ st.2))
    (fun st y => enqueueEdge w (enqueueEdge w st 0 y) (w - 1) y)
    (fun s a hp => hstep _ _ _ (hstep _ _ _ hp))
    (List.range' 1 (h - 1 - 1)) _ h1

theorem seedBorder_border (g : List Nat) (w h x y : Nat) (hx : x < w) (hy : y < h)
    (hb : x = 0 ∨ x = w - 1 ∨ y = 0 ∨ y = h - 1) :
    (seedBorder g w h).1.getD (y * w + x) 0 ≠ OPEN := by
  unfold seedBorder
  dsimp only
  by_cases hyb : y = 0 ∨ y = h - 1
  · refine foldl_preserve
      (fun st : List Nat × List Nat => st.1.getD (y * w + x) 0 ≠ OPEN) _ ?_ _ _ ?_
    · intro s a hp
      dsimp only
      exact enqueueEdge_nonopen _ _ _ _ _ (enqueueEdge_nonopen _ _ _ _ _ hp)
    · refine foldl_point
        (fun st : List Nat × List Nat => st.1.getD (y * w + x) 0 ≠ OPEN)
        _ x ?_ ?_ _ _ (List.mem_range.mpr hx)
      · intro s a hp
        dsimp only
        exact enqueueEdge_nonopen _ _ _ _ _ (enqueueEdge_nonopen _ _ _ _ _ hp)
      · intro s
        dsimp only
        rcases hyb with rfl | rfl
        · exact enqueueEdge_nonopen _ _ _ _ _ (enqueueEdge_target w s x 0)
        · exact enqueueEdge_target w (enqueueEdge w s x 0) x (h - 1)
  · have hxb : x = 0 ∨ x = w - 1 := by
      rcases hb with h1 | h1 | h1 | h1
      · exact Or.inl h1
      · exact Or.inr h1
      · exact absurd (Or.inl h1) hyb
      · exact absurd (Or.inr h1) hyb
    have hyR : y ∈ List.range' 1 (h - 1 - 1) := by
      rw [List.mem_range'_1]
      push_neg at hyb
      omega
    refine foldl_point
      (fun st : List Nat × List Nat => st.1.getD (y * w + x) 0 ≠ OPEN)
      _ y ?_ ?_ _ _ hyR
    · intro s a hp
      dsimp only
      exact enqueueEdge_nonopen _ _ _ _ _ (enqueueEdge_nonopen _ _ _ _ _ hp)
    · intro s
      dsimp only
      rcases hxb with rfl | rfl
      · exact enqueueEdge_nonopen _ _ _ _ _ (enqueueEdge_target w s 0 y)
      · exact enqueueEdge_target w (enqueueEdge w s 0 y) (w - 1) y

theorem idx_mod (w y x : Nat) (hx : x < w) : (y * w + x) % w = x := by
  have h2 : y * w + x = w * y + x := by ring
  rw [h2, Nat.mul_add_mod, Nat.mod_eq_of_lt hx]

theorem idx_div (w y x : Nat) (hx : x < w) : (y * w + x) / w = y := by
  have hw : 0 < w := Nat.lt_of_le_of_lt (Nat.zero_le x) hx
  have h2 : y * w + x = w * y + x := by ring
  rw [h2, Nat.mul_add_div hw, Nat.div_eq_of_lt hx]
  omega

theorem idx_lt (w h x y : Nat) (hx : x < w) (hy : y < h) : y * w + x < w * h := by
  calc y * w + x < y * w + w := by omega
    _ = (y + 1) * w := by ring
    _ ≤ h * w := Nat.mul_le_mul_right _ hy
    _ = w * h := Nat.mul_comm _ _

theorem nbrIdx_eval (w h x y : Nat) (hxlt : x < w) (dx dy : Int) (x2 y2 : Nat)
    (hx2 : (x : Int) + dx = (x2 : Int)) (hy2 : (y : Int) + dy = (y2 : Int))
    (hxw : x2 < w) (hyh : y2 < h) :
    nbrIdx w h (y * w + x) (dx, dy) = some (y2 * w + x2) := by
  simp only [nbrIdx, idx_mod w y x hxlt, idx_div w y x hxlt]
  rw [if_neg]
  · congr 1
    have he : ((y : Int) + dy) * (w : Int) + ((x : Int) + dx) =
        ((y2 * w + x2 : Nat) : Int) := by
      rw [hx2, hy2]; push_cast; ring
    rw [he, Int.toNat_natCast]
  · push_neg
    refine ⟨?_, ?_, ?_, ?_⟩ <;> omega

theorem flood_core (w h : Nat) (F : List Nat)
    (hA : ∀ j, F.getD j 0 =
        (seedBorder (List.replicate (w * h) OPEN) w h).1.getD j 0 ∨
        F.getD j 0 = EXTERIOR)
    (hB : ∀ i, F.getD i 0 = EXTERIOR → ∀ dxy ∈ nbrOffsets, ∀ j,
        nbrIdx w h i dxy = some j → F.getD j 0 ≠ OPEN) :
    ∀ j, F.getD j 0 ≠ OPEN := by
  set g : List Nat := List.replicate (w * h) OPEN with hgd
  have hg_open : ∀ t, t < w * h → g.getD t 0 = OPEN := by
    intro t ht
    rw [hgd, List.getD_eq_getElem _ _ (by rw [List.length_replicate]; exact ht),
      List.getElem_replicate]
  have hsd_val : ∀ t, (seedBorder g w h).1.getD t 0 = g.getD t 0 ∨
      (seedBorder g w h).1.getD t 0 = EXTERIOR := by
    intro t
    rcases seedBorder_src g w h t with heq | ⟨hext, -⟩
    · exact Or.inl heq
    · exact Or.inr hext
  have hFopen_ext : ∀ t, t < w * h → F.getD t 0 ≠ OPEN → F.getD t 0 = EXTERIOR := by
    intro t ht hno
    rcases hA t with heq | hext
    · rcases hsd_val t with h2 | h2
      · exfalso
        apply hno
        rw [heq, h2]
        exact hg_open t ht
      · rw [heq]; exact h2
    · exact hext
  have hFborder : ∀ x y, x < w → y < h →
      (x = 0 ∨ x = w - 1 ∨ y = 0 ∨ y = h - 1) → F.getD (y * w + x) 0 ≠ OPEN := by
    intro x y hxw hyh hb
    rcases hA (y * w + x) with heq | hext
    · rw [heq]; exact seedBorder_border g w h x y hxw hyh hb
    · rw [hext]; decide
  have main : ∀ d x y, x < w → y < h →
      (x ≤ d ∨ y ≤ d ∨ w - 1 - x ≤ d ∨ h - 1 - y ≤ d) →
      F.getD (y * w + x) 0 ≠ OPEN := by
    intro d
    induction d with
    | zero =>
        intro x y hx hy hdisj
        apply hFborder x y hx hy
        rcases hdisj with hc | hc | hc | hc <;> omega
    | succ d ih =>
        intro x y hx hy hdisj
        by_cases hd : x ≤ d ∨ y ≤ d ∨ w - 1 - x ≤ d ∨ h - 1 - y ≤ d
        · exact ih x y hx hy hd
        · push_neg at hd
          obtain ⟨hd1, hd2, hd3, hd4⟩ := hd
          rcases hdisj with hc | hc | hc | hc
          · have hx1 : x - 1 < w := by omega
            have hjlt : y * w + (x - 1) < w * h := idx_lt w h _ _ hx1 hy
            have hjne : F.getD (y * w + (x - 1)) 0 ≠ OPEN := by
              apply ih (x - 1) y hx1 hy
              left; omega
            have hjext := hFopen_ext _ hjlt hjne
            have hnb : nbrIdx w h (y * w + (x - 1)) (1, 0) = some (y * w + x) :=
              nbrIdx_eval w h (x - 1) y hx1 1 0 x y
                (by push_cast; omega) (by push_cast; omega) hx hy
            exact hB _ hjext (1, 0) (by decide) _ hnb
          · have hy1 : y - 1 < h := by omega
            have hjlt : (y - 1) * w + x < w * h := idx_lt w h _ _ hx hy1
            have hjne : F.getD ((y - 1) * w + x) 0 ≠ OPEN := by
              apply ih x (y - 1) hx hy1
              right; left; omega
            have hjext := hFopen_ext _ hjlt hjne
            have hnb : nbrIdx w h ((y - 1) * w + x) (0, 1) = some (y * w + x) :=
              nbrIdx_eval w h x (y - 1) hx 0 1 x y
                (by push_cast; omega) (by push_cast; omega) hx hy
            exact hB _ hjext (0, 1) (by decide) _ hnb
          · have hxr : x + 1 < w := by omega
            have hjlt : y * w + (x + 1) < w * h := idx_lt w h _ _ hxr hy
            have hjne : F.getD (y * w + (x + 1)) 0 ≠ OPEN := by
              apply ih (x + 1) y hxr hy
              right; right; left; omega
            have hjext := hFopen_ext _ hjlt hjne
            have hnb : nbrIdx w h (y * w + (x + 1)) (-1, 0) = some (y * w + x) :=
              nbrIdx_eval w h (x + 1) y hxr (-1) 0 x y
                (by push_cast; omega) (by push_cast; omega) hx hy
            exact hB _ hjext (-1, 0) (by decide) _ hnb
          · have hyr : y + 1 < h := by omega
            have hjlt : (y + 1) * w + x < w * h := idx_lt w h _ _ hx hyr
            have hjne : F.getD ((y + 1) * w + x) 0 ≠ OPEN := by
              apply ih x (y + 1) hx hyr
              right; right; right; omega
            have hjext := hFopen_ext _ hjlt hjne
            have hnb : nbrIdx w h ((y + 1) * w + x) (0, -1) = some (y * w + x) :=
              nbrIdx_eval w h x (y + 1) hx 0 (-1) x y
                (by push_cast; omega) (by push_cast; omega) hx hy
            exact hB _ hjext (0, -1) (by decide) _ hnb
  intro j0
  by_cases hj : j0 < w * h
  · have hw : 0 < w := by
      rcases Nat.eq_zero_or_pos w with rfl | hw
      · simp at hj
      · exact hw
    have him : j0 % w < w := Nat.mod_lt _ hw
    have hid : j0 / w < h := by
      rw [Nat.div_lt_iff_lt_mul hw, Nat.mul_comm]; exact hj
    have hmain := main (j0 % w) (j0 % w) (j0 / w) him hid (Or.inl le_rfl)
    rw [idx_decomp w j0] at hmain
    exact hmain
  · rcases hA j0 with heq | hext
    · rw [heq]
      rcases hsd_val j0 with h2 | h2
      · rw [h2, hgd,
          List.getD_eq_default _ _ (by rw [List.length_replicate]; omega)]
        decide
      · rw [h2]; decide
    · rw [hext]; decide

theorem flood_replicate_no_open (w h j0 : Nat) :
    (extBFS w h
        (w * h + (seedBorder (List.replicate (w * h) OPEN) w h).2.length)
        (seedBorder (List.replicate (w * h) OPEN) w h).1
        (seedBorder (List.replicate (w * h) OPEN) w h).2).getD j0 0 ≠ OPEN := by
  have hsdlen : (seedBorder (List.replicate (w * h) OPEN) w h).1.length = w * h := by
    rw [seedBorder_length, List.length_replicate]
  have hcm : countOpen (seedBorder (List.replicate (w * h) OPEN) w h).1 +
      (seedBorder (List.replicate (w * h) OPEN) w h).2.length ≤
      w * h + (seedBorder (List.replicate (w * h) OPEN) w h).2.length := by
    have hle : countOpen (seedBorder (List.replicate (w * h) OPEN) w h).1 ≤
        (seedBorder (List.replicate (w * h) OPEN) w h).1.length :=
      List.countP_le_length _
    omega
  have hg_noext : ∀ i, (List.replicate (w * h) OPEN).getD i 0 ≠ EXTERIOR := by
    intro i
    by_cases hi : i < w * h
    · rw [List.getD_eq_getElem _ _ (by rw [List.length_replicate]; exact hi),
        List.getElem_replicate]
      decide
    · rw [List.getD_eq_default _ _ (by rw [List.length_replicate]; omega)]
      decide
  have hinv0 : ∀ i,
      (seedBorder (List.replicate (w * h) OPEN) w h).1.getD i 0 = EXTERIOR →
      i ∉ (seedBorder (List.replicate (w * h) OPEN) w h).2 →
      ∀ dxy ∈ nbrOffsets, ∀ j, nbrIdx w h i dxy = some j →
        (seedBorder (List.replicate (w * h) OPEN) w h).1.getD j 0 ≠ OPEN := by
    intro i hi hiq dxy hdxy j hj
    exfalso
    rcases seedBorder_src (List.replicate (w * h) OPEN) w h i with heq | ⟨-, hmem⟩
    · rw [heq] at hi
      exact hg_noext i hi
    · exact hiq hmem
  obtain ⟨hA, hB⟩ := extBFS_props w h
    (w * h + (seedBorder (List.replicate (w * h) OPEN) w h).2.length)
    (seedBorder (List.replicate (w * h) OPEN) w h).1
    (seedBorder (List.replicate (w * h) OPEN) w h).2 hsdlen hcm hinv0
  exact flood_core w h _ hA hB j0

theorem foldl_add_zeros :
    ∀ (g : List Nat) (a : Nat), (∀ v ∈ g, v = 0) → g.foldl (· + ·) a = a := by
  intro g
  induction g with
  | nil => intro a _; rfl
  | cons v t ih =>
      intro a hv
      rw [List.foldl_cons, hv v (List.mem_cons_self v t), Nat.add_zero]
      exact ih a fun b hb => hv b (List.mem_cons_of_mem _ hb)

theorem foldl_add_ones :
    ∀ (g : List Nat) (a : Nat), (∀ v ∈ g, v = 1) →
      g.foldl (· + ·) a = a + g.length := by
  intro g
  induction g with
  | nil => intro a _; rfl
  | cons v t ih =>
      intro a hv
      rw [List.foldl_cons, hv v (List.mem_cons_self v t),
        ih (a + 1) fun b hb => hv b (List.mem_cons_of_mem _ hb)]
      simp only [List.length_cons]
      omega

theorem all_getD_to_mem (l : List Nat) (n c : Nat) (hlen : l.length = n)
    (hall : ∀ i, i < n → l.getD i 0 = c) : ∀ v ∈ l, v = c := by
  intro v hv
  obtain ⟨i, hi, rfl⟩ := List.mem_iff_getElem.mp hv
  have hc := hall i (hlen ▸ hi)
  rw [List.getD_eq_getElem l 0 hi] at hc
  exact hc

theorem eq_replicate_of (l : List Nat) (n c : Nat) (hlen : l.length = n)
    (hall : ∀ v ∈ l, v = c) : l = List.replicate n c := by
  subst hlen
  exact List.eq_replicate_of_mem hall

theorem binaryOf_all_wall (img : Image)
    (hw : ∀ i, i < img.width * img.height → (binarize img).getD i 0 = WALL) :
    binaryOf img = List.replicate (img.width * img.height) OPEN := by
  have hlen := binarize_length img
  have hmem : ∀ v ∈ binarize img, v = WALL := all_getD_to_mem _ _ _ hlen hw
  have hcount : openCount (binarize img) = 0 := foldl_add_zeros _ 0 hmem
  unfold binaryOf
  dsimp only
  rcases Nat.eq_zero_or_pos (img.width * img.height) with h0 | hpos
  · have hc : ¬ ((openCount (binarize img) : ℚ) <
        (img.width : ℚ) * (img.height : ℚ) * 0.3) := by
      rw [hcount]
      have hzz : (img.width : ℚ) * (img.height : ℚ) = 0 := by
        rcases Nat.mul_eq_zero.mp h0 with h1 | h1 <;> simp [h1]
      rw [hzz]
      norm_num
    rw [if_neg hc]
    have hnil : binarize img = [] :=
      List.eq_nil_of_length_eq_zero (by rw [hlen, h0])
    rw [hnil, h0]
    rfl
  · have hc : (openCount (binarize img) : ℚ) <
        (img.width : ℚ) * (img.height : ℚ) * 0.3 := by
      rw [hcount]
      have hpq : (0 : ℚ) < (img.width : ℚ) * (img.height : ℚ) := by
        exact_mod_cast hpos
      push_cast
      have h03 : (0 : ℚ) < 0.3 := by norm_num
      exact mul_pos hpq h03
    rw [if_pos hc]
    apply eq_replicate_of
    · simp [flipGrid, hlen]
    · intro v hv
      unfold flipGrid at hv
      obtain ⟨u, hu, rfl⟩ := List.mem_map.mp hv
      rw [hmem u hu]
      decide

theorem binaryOf_all_open (img : Image)
    (ho : ∀ i, i < img.width * img.height → (binarize img).getD i 0 = OPEN) :
    binaryOf img = List.replicate (img.width * img.height) OPEN := by
  have hlen := binarize_length img
  have hmem : ∀ v ∈ binarize img, v = OPEN := all_getD_to_mem _ _ _ hlen ho
  have hcount : openCount (binarize img) = img.width * img.height := by
    unfold openCount
    rw [foldl_add_ones _ 0 hmem]
    omega
  unfold binaryOf
  dsimp only
  have hc : ¬ ((openCount (binarize img) : ℚ) <
      (img.width : ℚ) * (img.height : ℚ) * 0.3) := by
    rw [hcount, not_lt]
    have hcast : ((img.width * img.height : Nat) : ℚ) =
        (img.width : ℚ) * (img.height : ℚ) := by push_cast; ring
    rw [hcast]
    have hnn : (0 : ℚ) ≤ (img.width : ℚ) * (img.height : ℚ) :=
      mul_nonneg (Nat.cast_nonneg _) (Nat.cast_nonneg _)
    nlinarith
  rw [if_neg hc]
  exact eq_replicate_of _ _ _ hlen hmem

theorem dilateWalls_replicate_open (w h radius : Nat) :
    dilateWalls (List.replicate (w * h) OPEN) w h radius =
      List.replicate (w * h) OPEN := by
  unfold dilateWalls
  apply foldl_id_of
  intro i hi
  have hi2 : i < h * w := List.mem_range.mp hi
  dsimp only
  rw [if_neg]
  rw [idx_decomp]
  have hlt : i < (List.replicate (w * h) OPEN).length := by
    rw [List.length_replicate, Nat.mul_comm]
    exact hi2
  rw [List.getD_eq_getElem _ _ hlt, List.getElem_replicate]
  decide

theorem scanRooms_no_open (labeled : List Nat) (w h : Nat)
    (hno : ∀ j, labeled.getD j 0 ≠ OPEN) : scanRooms labeled w h = [] := by
  unfold scanRooms
  refine Eq.trans (congrArg Prod.snd (foldl_id_of _ _ _ ?_)) rfl
  intro startY hY
  apply foldl_id_of
  intro startX hX
  dsimp only
  rw [if_neg fun hc => hno _ hc.1]

theorem detectBoxes_degenerate (img : Image)
    (hdeg : (∀ i, i < img.width * img.height → (binarize img).getD i 0 = WALL) ∨
        (∀ i, i < img.width * img.height → (binarize img).getD i 0 = OPEN)) :
    detectBoxes img = [] := by
  have hbo : binaryOf img = List.replicate (img.width * img.height) OPEN := by
    rcases hdeg with hdW | hdO
    · exact binaryOf_all_wall img hdW
    · exact binaryOf_all_open img hdO
  unfold detectBoxes
  dsimp only
  rw [hbo, dilateWalls_replicate_open]
  apply scanRooms_no_open
  intro j
  exact flood_replicate_no_open img.width img.height j

set_option maxRecDepth 100000 in
/-- Witness for the amended C5 at a concrete input: `imgBorder` is purely
black/white and its open fraction `182/240` is above 70%. -/
theorem analyzeFloorPlan_polarity_invariance_witness :
    analyzeFloorPlan (invertImage imgBorder) 100 100 =
      analyzeFloorPlan imgBorder 100 100 :=
  analyzeFloorPlan_polarity_invariance imgBorder 100 100
    (by
      intro x hx y hy
      dsimp only [imgBorder]
      split_ifs <;> norm_num)
    (by
      intro x hx y hy
      dsimp only [imgBorder]
      split_ifs
      · right; norm_num [luma]
      · left; norm_num [luma])
    (Or.inr (by rw [binarize_eq]; decide))

/-- C6: for every image whose pixels all binarize to `Wall`, and every image
whose pixels all binarize to `Open`, `analyzeFloorPlan` returns the empty
list of rooms (and, being a total function of the embedding, does not
throw): the polarity pass turns both degenerate grids into the all-open
grid, wall dilation leaves it unchanged, the border-seeded exterior flood
fill then relabels every cell `EXTERIOR`, and the room scan of an
`OPEN`-free grid keeps no component. -/
theorem analyzeFloorPlan_degenerate_empty (img : Image) (cw ch : ℝ)
    (hdeg : (∀ i, i < img.width * img.height → (binarize img).getD i 0 = WALL) ∨
        (∀ i, i < img.width * img.height → (binarize img).getD i 0 = OPEN)) :
    analyzeFloorPlan img cw ch = [] := by
  unfold analyzeFloorPlan
  dsimp only
  rw [detectBoxes_degenerate img hdeg]
  rfl

/-- Witness for C6 at a concrete input: the all-black 2×2 image binarizes to
all-`Wall` and the analyzer returns no rooms. -/
theorem analyzeFloorPlan_degenerate_empty_witness :
    ((∀ i, i < imgBlack.width * imgBlack.height →
        (binarize imgBlack).getD i 0 = WALL) ∨
      (∀ i, i < imgBlack.width * imgBlack.height →
        (binarize imgBlack).getD i 0 = OPEN)) ∧
      analyzeFloorPlan imgBlack 800 600 = [] := by
  have hW : ∀ i, i < imgBlack.width * imgBlack.height →
      (binarize imgBlack).getD i 0 = WALL := by
    intro i hi
    rw [binarize_eq]
    have hi4 : i < 4 := hi
    interval_cases i <;> decide
  exact ⟨Or.inl hW,
    analyzeFloorPlan_degenerate_empty imgBlack 800 600 (Or.inl hW)⟩

end House
